import Mathlib

/-!
# Verification of `src/precompile.c` (compiler output generation)

A shallow embedding of the specialization-selection and artifact-serialization
core of `precompile.c`, together with theorems settling the frozen claims about
it.  Pure C helpers become Lean functions; the `ios_t` buffered stream becomes
an explicit buffer-plus-cursor state; calls into the external type system
(`jl_instantiate_type_with`, `jl_has_concrete_subtype`) become an explicit
oracle record; machine integers become `Nat` with explicit `% 2^w` at the
serialization boundary.
-/

/-! ## Julia type values

The shape of `jl_value_t*` type objects as far as `precompile.c` inspects them:
`jl_bottom_type`, plain datatypes (with their precomputed `isconcretetype`
flag, kind-ness, `jl_type_typename` identity and free-typevar flag), binary
`Union` nodes, type variables, tuple types and `UnionAll` wrappers.  The `id`
field distinguishes otherwise equal atoms. -/
inductive JType where
  | bottom
  | datatype (isconcrete iskind istypetype hasfree : Bool) (id : Nat)
  | uniontype (a b : JType)
  | tvar (id : Nat) (lb ub : JType)
  | tuple (params : List JType)
  | unionall (id : Nat) (lb ub : JType) (body : JType)
  deriving Repr

/-- `jl_is_uniontype`. -/
def jl_is_uniontype : JType → Bool
  | .uniontype _ _ => true
  | _ => false

/-- `jl_is_datatype`: datatypes proper and tuple types are `jl_datatype_t`. -/
def jl_is_datatype : JType → Bool
  | .datatype _ _ _ _ _ => true
  | .tuple _ => true
  | _ => false

/-- `jl_is_kind`: recorded as a flag on datatype atoms. -/
def jl_is_kind : JType → Bool
  | .datatype _ k _ _ _ => k
  | _ => false

/-- `((jl_datatype_t*)ty)->name == jl_type_typename`, i.e. the type is a
`Type{...}` datatype. -/
def is_type_typename : JType → Bool
  | .datatype _ _ tt _ _ => tt
  | _ => false

/-- `jl_count_union_components`: number of leaves of the binary union tree. -/
def jl_count_union_components : JType → Nat
  | .uniontype a b => jl_count_union_components a + jl_count_union_components b
  | _ => 1

/-- `jl_nth_union_component`: the `i`-th leaf of the binary union tree. -/
def jl_nth_union_component : JType → Nat → JType
  | .uniontype a b, i =>
    let ca := jl_count_union_components a
    if i < ca then jl_nth_union_component a i else jl_nth_union_component b (i - ca)
  | t, _ => t

mutual

/-- `jl_is_concrete_type`: the `isconcretetype` flag of a datatype; a tuple
type is concrete exactly when all its parameters are. -/
def jl_is_concrete_type : JType → Bool
  | .datatype c _ _ _ _ => c
  | .tuple ps => allConcrete ps
  | _ => false

/-- All members of a tuple-type parameter list are concrete. -/
def allConcrete : List JType → Bool
  | [] => true
  | t :: ts => jl_is_concrete_type t && allConcrete ts

end

mutual

/-- `jl_has_free_typevars` with an explicit environment of bound variable ids
(variables bound by an enclosing `UnionAll` are not free). -/
def hasFreeTV (bound : List Nat) : JType → Bool
  | .bottom => false
  | .datatype _ _ _ hf _ => hf
  | .uniontype a b => hasFreeTV bound a || hasFreeTV bound b
  | .tvar id lb ub => !(bound.contains id) || hasFreeTV bound lb || hasFreeTV bound ub
  | .tuple ps => hasFreeTVList bound ps
  | .unionall id lb ub body =>
      hasFreeTV bound lb || hasFreeTV bound ub || hasFreeTV (id :: bound) body

/-- Some member of a tuple-type parameter list has a free type variable. -/
def hasFreeTVList (bound : List Nat) : List JType → Bool
  | [] => false
  | t :: ts => hasFreeTV bound t || hasFreeTVList bound ts

end

/-- `jl_has_free_typevars`. -/
def jl_has_free_typevars (t : JType) : Bool := hasFreeTV [] t

/-- `ty == jl_bottom_type` (`jl_bottom_type` is a singleton, so the C pointer
comparison is a shape test). -/
def is_bottom : JType → Bool
  | .bottom => true
  | _ => false

/-- `jl_unwrap_unionall`. -/
def jl_unwrap_unionall : JType → JType
  | .unionall _ _ _ body => jl_unwrap_unionall body
  | t => t

/-- `jl_subtype_env_size`: the number of `UnionAll` wrappers. -/
def jl_subtype_env_size : JType → Nat
  | .unionall _ _ _ body => jl_subtype_env_size body + 1
  | _ => 0

/-- `jl_rewrap_unionall t sig`: rewrap `t` in `sig`'s `UnionAll` binders. -/
def jl_rewrap_unionall (t : JType) : JType → JType
  | .unionall id lb ub body => .unionall id lb ub (jl_rewrap_unionall t body)
  | _ => t

/-- The parameter list of a tuple type (`sigbody->parameters`). -/
def tupleParams : JType → List JType
  | .tuple ps => ps
  | _ => []

/-! ## The union-splitting enumerator

`_compile_all_union` / `_compile_all_tvar_union` (`precompile.c:188-316`).
Calls into the external type system and compilation backend are collected in
an `Oracle`; `instantiate` models `jl_instantiate_type_with`, with `none`
standing for a thrown error (the `JL_TRY`/`JL_CATCH` pair).  The return value
of `jl_compile_hint` is ignored by the source (both branches reach `getnext`),
so the model records hint attempts rather than their outcomes. -/
structure Oracle where
  instantiate : JType → List (Nat × JType) → Option JType
  hasConcreteSubtype : JType → Bool

/-- An oracle whose instantiation never fails and never changes the body; used
for evaluating runs that do not consult the oracle or do not depend on it. -/
def trivialOracle : Oracle where
  instantiate := fun body _ => some body
  hasConcreteSubtype := fun _ => true

/-- The parameter pre-scan of `_compile_all_union` (`precompile.c:261-271`):
the test that makes the function return because `no amount of union splitting
will make this a leaftype signature`. -/
def leaftype_check (ty : JType) : Bool :=
  jl_is_datatype ty && !jl_has_free_typevars ty &&
    ((!jl_is_kind ty && jl_is_concrete_type ty) || is_type_typename ty)

/-- The scan loop of `_compile_all_union`: counts union parameters, aborting
(`none`) at a `jl_bottom_type` parameter or at a parameter that passes
`leaftype_check`. -/
def scanParams : List JType → Option Nat
  | [] => some 0
  | ty :: rest =>
    if jl_is_uniontype ty then (scanParams rest).map (· + 1)
    else if is_bottom ty then none
    else if leaftype_check ty then none
    else scanParams rest

/-- The mixed-radix digit sizes of a parameter list: one digit per union
parameter, whose radix is its component count (`l` in the source). -/
def unionCounts : List JType → List Nat
  | [] => []
  | ty :: rest =>
    if jl_is_uniontype ty then jl_count_union_components ty :: unionCounts rest
    else unionCounts rest

/-- Product of the digit radixes: the size of the full combination space. -/
def prodCounts : List Nat → Nat
  | [] => 1
  | c :: cs => c * prodCounts cs

/-- The all-zero digit vector (`idx[i] = 0` initialization, lines 278-281). -/
def zeroIdx (counts : List Nat) : List Nat := counts.map fun _ => 0

/-- One body pass of the `while (!incr)` loop of `_compile_all_union`
(`precompile.c:285-309`), on the suffix of parameters still to process: builds
the selected parameter list `p`, threads the union-digit counter values, and
threads the `incr` flag (`true` on entry to each pass; cleared by the first
union digit that accepts the increment without overflowing). -/
def unionBodyPass : List JType → List Nat → Bool → List JType × List Nat × Bool
  | [], idx, incr => ([], idx, incr)
  | ty :: rest, idx, incr =>
    if jl_is_uniontype ty then
      let l := jl_count_union_components ty
      let j := idx.headD 0
      let sel := jl_nth_union_component ty j
      let step := if incr then (if j + 1 = l then (0, true) else (j + 1, false))
                  else (j, incr)
      let out := unionBodyPass rest idx.tail step.2
      (sel :: out.1, step.1 :: out.2.1, out.2.2)
    else
      let out := unionBodyPass rest idx incr
      (ty :: out.1, out.2.1, out.2.2)

/-- The `while (!incr)` loop of `_compile_all_union`, with explicit fuel.  The
loop body always runs at least once (the C loop enters with `incr = 0`), and
`theorem`s below show that fuel `prodCounts (unionCounts params)` runs the
loop to its natural termination (all digits wrapped). -/
def unionLoop (params : List JType) : Nat → List Nat → List (List JType)
  | 0, _ => []
  | fuel + 1, idx =>
    let out := unionBodyPass params idx true
    out.1 :: (if out.2.2 then [] else unionLoop params fuel out.2.1)

/-- The parameter selection denoted by a digit vector: union parameters take
their `j`-th component, other parameters are left fixed. -/
def selectComb : List JType → List Nat → List JType
  | [], _ => []
  | ty :: rest, idx =>
    if jl_is_uniontype ty then
      jl_nth_union_component ty (idx.headD 0) :: selectComb rest idx.tail
    else ty :: selectComb rest idx

/-- Pure mixed-radix increment of a digit vector (least-significant digit
first): returns the new vector and whether the increment wrapped around. -/
def incIdx : List Nat → List Nat → List Nat × Bool
  | [], _ => ([], true)
  | c :: cs, idx =>
    let j := idx.headD 0
    if j + 1 = c then
      let out := incIdx cs idx.tail
      (0 :: out.1, out.2)
    else ((j + 1) :: idx.tail, false)

/-- Mixed-radix enumeration with fuel, `none` when the fuel is exhausted
before the counter wraps around.  `digitRun counts fuel idx = some s` means
the counter, started at `idx`, visits exactly the states `s` and then wraps:
more fuel cannot change the answer. -/
def digitRun (counts : List Nat) : Nat → List Nat → Option (List (List Nat))
  | 0, _ => none
  | fuel + 1, idx =>
    let out := incIdx counts idx
    if out.2 then some [idx] else (digitRun counts fuel out.1).map (idx :: ·)

/-- All digit vectors for the given radixes, first digit varying fastest. -/
def digitSeq : List Nat → List (List Nat)
  | [] => [[]]
  | c :: cs => (digitSeq cs).flatMap fun v => (List.range c).map (· :: v)

/-- One entry of the enumeration state of `_compile_all_tvar_union`
(`precompile.c:190-249`): the type variable of one `UnionAll` wrapper
(`env[2*i]`), its counter `idx[i]`, and its current binding `env[2*i+1]`. -/
structure TvarSlot where
  varId : Nat
  lb : JType
  ub : JType
  idx : Nat
  binding : JType
  deriving Repr

/-- The initialization loop of `_compile_all_tvar_union` (lines 199-205):
collect the `UnionAll` variables outermost first, zero each counter, and bind
each variable to `jl_bottom_type` (`T <: Union{}` is always a valid option). -/
def initSlots : JType → List TvarSlot
  | .unionall id lb ub body => ⟨id, lb, ub, 0, .bottom⟩ :: initSlots body
  | _ => []

/-- The `getnext` inner loop (lines 224-246): advance the enumeration state
from the least-significant slot.  A slot with a union upper bound is a
mixed-radix digit of radix `l + 1` (value `l` wraps back to the `Union{}`
binding); a non-concrete component is rebound as a narrower type variable
rather than substituted directly; a slot with a non-union bound is rebound to
the variable itself and passes the carry on.  The returned flag is whether
some digit broke out of the loop, i.e. whether the outer `for` continues
(`i < tvarslen` on exit). -/
def getnext : List TvarSlot → List TvarSlot × Bool
  | [] => ([], false)
  | s :: rest =>
    if jl_is_uniontype s.ub then
      let l := jl_count_union_components s.ub
      let j := s.idx
      if j = l then
        let out := getnext rest
        ({ s with binding := .bottom, idx := 0 } :: out.1, out.2)
      else
        let ty := jl_nth_union_component s.ub j
        let ty' := if jl_is_concrete_type ty then ty else .tvar s.varId s.lb ty
        ({ s with binding := ty', idx := j + 1 } :: rest, true)
    else
      let out := getnext rest
      ({ s with binding := .tvar s.varId s.lb s.ub } :: out.1, out.2)

/-- The environment handed to `jl_instantiate_type_with`: variable/binding
pairs in slot order. -/
def envOf (slots : List TvarSlot) : List (Nat × JType) :=
  slots.map fun s => (s.varId, s.binding)

/-- Fuel that runs the `_compile_all_tvar_union` loop to completion: the
product of the digit radixes (`l + 1` per union-bounded slot, `1` per
other slot). -/
def tvarFuel : List TvarSlot → Nat
  | [] => 1
  | s :: rest =>
    (if jl_is_uniontype s.ub then jl_count_union_components s.ub + 1 else 1) * tvarFuel rest

/-- The main loop of `_compile_all_tvar_union` (lines 207-247), with explicit
fuel.  Per iteration it records the environment of the combination being
tried, then attempts instantiation (`JL_TRY`; a caught failure skips the
combination), discards results with no concrete subtype, attempts
`jl_compile_hint` only on concrete results, and advances via `getnext`.
Returns the tried environments and the hinted (concrete, instantiated)
signatures. -/
def tvarLoop (o : Oracle) (sigbody : JType) :
    Nat → List TvarSlot → List (List (Nat × JType)) × List JType
  | 0, _ => ([], [])
  | fuel + 1, slots =>
    let env := envOf slots
    let hinted : Option JType :=
      match o.instantiate sigbody env with
      | none => none
      | some t =>
        if o.hasConcreteSubtype t then
          (if jl_is_concrete_type t then some t else none)
        else none
    let out := getnext slots
    let rest := if out.2 then tvarLoop o sigbody fuel out.1 else ([], [])
    (env :: rest.1, match hinted with | some t => t :: rest.2 | none => rest.2)

/-- `_compile_all_tvar_union` (`precompile.c:190-249`).  Returns the list of
environments tried and of signatures handed to `jl_compile_hint`.  When the
signature has no `UnionAll` wrapper, `tvarslen = 0` and the enumeration loop
`for (i = 0; i < tvarslen; ...)` is skipped entirely. -/
def compile_all_tvar_union (o : Oracle) (methsig : JType) :
    List (List (Nat × JType)) × List JType :=
  let tvarslen := jl_subtype_env_size methsig
  let sigbody := jl_unwrap_unionall methsig
  let slots := initSlots methsig
  if tvarslen = 0 then ([], [])
  else tvarLoop o sigbody (tvarFuel slots) slots

/-- Observable behaviour of one `_compile_all_union` call: the signatures it
passes to `_compile_all_tvar_union` and the signatures the latter hands to
`jl_compile_hint`. -/
structure UTrace where
  tvarCalls : List JType
  hints : List JType
  deriving Repr

/-- `_compile_all_union` (`precompile.c:253-316`): scan the tuple parameters
(returning early on a `jl_bottom_type` or `leaftype_check` parameter), route
signatures with zero or six-or-more union parameters directly to
`_compile_all_tvar_union`, and otherwise expand the union parameters with the
mixed-radix counter loop, rewrapping each combination in the original
`UnionAll` binders and passing it to `_compile_all_tvar_union`. -/
def compile_all_union (o : Oracle) (sig : JType) : UTrace :=
  let sigbody := jl_unwrap_unionall sig
  let params := tupleParams sigbody
  match scanParams params with
  | none => ⟨[], []⟩
  | some count_unions =>
    if count_unions = 0 ∨ 6 ≤ count_unions then
      ⟨[sig], (compile_all_tvar_union o sig).2⟩
    else
      let counts := unionCounts params
      let combos := unionLoop params (prodCounts counts) (zeroIdx counts)
      let methsigs := combos.map fun p => jl_rewrap_unionall (.tuple p) sig
      ⟨methsigs, methsigs.flatMap fun ms => (compile_all_tvar_union o ms).2⟩

/-! ## Specialization selection (incremental worklist mode)

`precompile_enq_specialization_` / `precompile_enq_all_specializations__` /
`jl_precompile_worklist` (`precompile.c:364-476`). -/

/-- The `invoke` pointer of a `jl_code_instance_t`: unset, the special
`jl_fptr_const_return` trampoline, or a native entry point. -/
inductive Invoke where
  | nullp
  | constReturn
  | fptr (id : Nat)
  deriving Repr, DecidableEq

/-- The `inferred` field of a `jl_code_instance_t`: `NULL`, `jl_nothing`, or
an inferred-IR array carrying the `jl_ir_flag_inferred` bit and the
`jl_ir_inlining_cost` value. -/
inductive InferredIR where
  | nullp
  | nothingVal
  | ir (flagInferred : Bool) (inliningCost : Nat)
  deriving Repr, DecidableEq

/-- One entry of a specialization's `CompiledEntry` chain
(`jl_code_instance_t`), with its `next` link flattened into a list. -/
structure CodeInstance where
  invoke : Invoke
  inferred : InferredIR
  precompileFlag : Bool
  deriving Repr, DecidableEq

/-- A `jl_method_instance_t` together with its cache chain. -/
structure MethodInstance where
  id : Nat
  cache : List CodeInstance
  deriving Repr, DecidableEq

/-- The per-entry `do_compile` decision of `precompile_enq_specialization_`
(`precompile.c:369-381`), with the `if`/`else if` chain kept intact. -/
def do_compile (ci : CodeInstance) : Bool :=
  if ci.invoke = Invoke.constReturn then false
  else if (match ci.inferred with
           | .ir f c => f && decide (c = 65535)
           | _ => false) then true
  else if ci.invoke ≠ Invoke.nullp || ci.precompileFlag then true
  else false

/-- Items pushed onto the closure array: method instances, and for
`ccallable` methods the `(rt, sig)` pair `m->ccallable` (modelled by the
owning method's id). -/
inductive EnqItem where
  | mi (m : MethodInstance)
  | ccallableEntry (methodId : Nat)
  deriving Repr, DecidableEq

/-- The chain walk of `precompile_enq_specialization_` (`precompile.c:368-387`):
push `mi` at the first chain entry whose `do_compile` holds. -/
def enqSpecializationWalk (mi : MethodInstance) (closure : List EnqItem) :
    List CodeInstance → List EnqItem
  | [] => closure
  | ci :: rest =>
    if do_compile ci then closure ++ [EnqItem.mi mi]
    else enqSpecializationWalk mi closure rest

/-- `precompile_enq_specialization_`. -/
def precompile_enq_specialization_ (mi : MethodInstance) (closure : List EnqItem) :
    List EnqItem :=
  enqSpecializationWalk mi closure mi.cache

/-- A `jl_method_t` as inspected by `precompile_enq_all_specializations__`:
its name, whether `m->ccallable` is set, whether `jl_is_dispatch_tupletype`
holds of `m->sig`, its existing specializations (`jl_nothing` entries become
`none`), and the specialization `jl_specializations_get_linfo(m, m->sig,
jl_emptysvec)` would force into existence (an external-collaborator value,
recorded as a field). -/
structure JMethod where
  id : Nat
  name : String
  ccallable : Bool
  sigDispatchTuple : Bool
  specializations : List (Option MethodInstance)
  forcedMI : MethodInstance
  deriving Repr, DecidableEq

/-- `precompile_enq_all_specializations__` (`precompile.c:391-411`). -/
def precompile_enq_all_specializations__ (m : JMethod) (closure : List EnqItem) :
    List EnqItem :=
  let closure :=
    if (m.name = "__init__" ∨ m.ccallable = true) ∧ m.sigDispatchTuple = true then
      closure ++ [EnqItem.mi m.forcedMI]
    else
      m.specializations.foldl
        (fun acc mi? =>
          match mi? with
          | some mi => precompile_enq_specialization_ mi acc
          | none => acc)
        closure
  if m.ccallable then closure ++ [EnqItem.ccallableEntry m.id] else closure

/-- A module, for worklist purposes: the methods of its method tables
(`foreach_mtable_in_module` visitation order flattened). -/
structure JModule where
  methods : List JMethod
  deriving Repr, DecidableEq

/-- The enqueue phase of `jl_precompile_worklist` (`precompile.c:459-472`):
the closure array `m` built from every method of every worklist module (the
subsequent `jl_precompile_` / `jl_create_native` call is the external
backend). -/
def jl_precompile_worklist (worklist : List JModule) : List EnqItem :=
  worklist.foldl
    (fun acc mod_ => mod_.methods.foldl
      (fun a m => precompile_enq_all_specializations__ m a) acc)
    []

/-! ## Full-sweep selection

`jl_compile_all_defs` (`precompile.c:335-362`). -/

/-- A method as visited by the full sweep: whether it has a non-generated
definition (`m->source`), its declared signature, the (external)
`jl_isa_compileable_sig` verdict on it, and the (external)
`jl_get_unspecialized` result, `none` when that returns `NULL`. -/
structure CMethod where
  id : Nat
  sig : JType
  hasSource : Bool
  compileableSig : Bool
  unspecialized : Option MethodInstance
  deriving Repr

/-- `compile_all_collect__` (`precompile.c:318-327`): keep methods that have
a non-generated definition. -/
def compile_all_collect (methods : List CMethod) : List CMethod :=
  methods.filter fun m => m.hasSource

/-- `jl_compile_all_defs` (`precompile.c:335-362`): for each collected
method, hint the declared signature directly when it is already compileable;
otherwise run the union-splitting enumerator over it and additionally push
the fully generic unspecialized fallback if the runtime provides one.
Returns the pushed fallback method instances and the hinted signatures. -/
def jl_compile_all_defs (o : Oracle) (methods : List CMethod) :
    List MethodInstance × List JType :=
  (compile_all_collect methods).foldl
    (fun acc m =>
      if m.compileableSig then (acc.1, acc.2 ++ [m.sig])
      else
        let tr := compile_all_union o m.sig
        (acc.1 ++ (match m.unspecialized with | some u => [u] | none => []),
         acc.2 ++ tr.hints))
    ([], [])

/-! ## Output driver: module initialization order

The init-order rebuild loop of `jl_write_compiler_output`
(`precompile.c:86-108`). -/

/-- The compile policy of a module (`jl_get_module_compile`). -/
inductive CompileSetting where
  | off
  | min
  | default
  | on
  | all
  deriving Repr, DecidableEq

/-- A module as seen by the init-order loop: whether `jl_get_global(m,
jl_symbol("__init__"))` finds a binding, the module's compile setting, and
the id of the tuple type that would be hinted for the initializer. -/
structure WModule where
  id : Nat
  hasInitGlobal : Bool
  setting : CompileSetting
  initTupleType : Nat
  deriving Repr, DecidableEq

/-- The loop of `jl_write_compiler_output` lines 90-108: rebuild
`jl_module_init_order` from scratch, keeping exactly the worklist modules
that bind a global named `__init__` (in order), and hint the initializer's
call type unless the module's compile setting is off or minimal.  Returns
the new init order and the hinted type ids. -/
def buildInitOrder (worklist : List WModule) : List WModule × List Nat :=
  worklist.foldl
    (fun acc m =>
      if m.hasInitGlobal then
        (acc.1 ++ [m],
         acc.2 ++
           (if m.setting ≠ CompileSetting.off ∧ m.setting ≠ CompileSetting.min then
              [m.initTupleType]
            else []))
      else acc)
    ([], [])

/-! ## Image serialization

`write_srctext` and the checksum-patch section of `jl_write_compiler_output`
(`precompile.c:27-73` and `precompile.c:148-158`).  An `ios_t` stream is a
byte buffer plus a cursor; `write_*` overwrite in place at the cursor,
extending the buffer at its end.  Bytes are little-endian, as written by
`write_int32`/`write_uint64` on the supported targets. -/

/-- Little-endian encoding of `n` in `w` bytes (truncating to `2^(8*w)`). -/
def toLE : Nat → Nat → List Nat
  | 0, _ => []
  | w + 1, n => n % 256 :: toLE w (n / 256)

/-- Value of a little-endian byte string. -/
def fromLE : List Nat → Nat
  | [] => 0
  | b :: bs => b % 256 + 256 * fromLE bs

/-- An `ios_t` stream: buffer contents plus cursor. -/
structure IOS where
  buf : List Nat
  pos : Nat
  deriving Repr, DecidableEq

/-- `ios_pos`. -/
def ios_pos (f : IOS) : Nat := f.pos

/-- `ios_seek`. -/
def ios_seek (f : IOS) (p : Nat) : IOS := ⟨f.buf, p⟩

/-- `ios_seek_end`. -/
def ios_seek_end (f : IOS) : IOS := ⟨f.buf, f.buf.length⟩

/-- `ios_write`: overwrite at the cursor, extending at the end. -/
def ios_write (f : IOS) (bytes : List Nat) : IOS :=
  ⟨f.buf.take f.pos ++ bytes ++ f.buf.drop (f.pos + bytes.length),
   f.pos + bytes.length⟩

/-- `write_int32`. -/
def write_int32 (f : IOS) (n : Nat) : IOS := ios_write f (toLE 4 n)

/-- `write_uint64`. -/
def write_uint64 (f : IOS) (n : Nat) : IOS := ios_write f (toLE 8 n)

/-- One entry of the `udeps` array: the declaring module (only its identity
as the root/`Main` module matters), the dependency's absolute path string,
whether `ios_file` can open it, and its byte content. -/
structure SrcDep where
  isMainModule : Bool
  path : List Nat
  openable : Bool
  content : List Nat
  deriving Repr, DecidableEq

/-- The per-dependency body of the `write_srctext` loop (`precompile.c:44-69`):
skip root-module entries, empty paths (`!depstr[0]`) and unopenable files;
otherwise write `[int32 path length][path][uint64 placeholder][file bytes]`
and patch the placeholder with the copied byte count. -/
def writeDep (f : IOS) (d : SrcDep) : IOS :=
  if d.isMainModule then f
  else if d.path.headD 0 = 0 then f
  else if !d.openable then f
  else
    let f1 := write_int32 f d.path.length
    let f2 := ios_write f1 d.path
    let posfile := ios_pos f2
    let f3 := write_uint64 f2 0
    let f4 := ios_write f3 d.content
    let f5 := ios_seek f4 posfile
    let f6 := write_uint64 f5 d.content.length
    ios_seek_end f6

/-- `write_srctext` (`precompile.c:27-73`): when `udeps` is present, record
the current position into the header field at `srctextpos`, seek to the end,
write each dependency record, and in every case terminate with an `int32 0`
sentinel at the current position. -/
def write_srctext (f : IOS) (udeps : Option (List SrcDep)) (srctextpos : Nat) : IOS :=
  let f' :=
    match udeps with
    | some deps =>
      let posfile := ios_pos f
      let fa := ios_seek f srctextpos
      let fb := write_uint64 fa posfile
      let fc := ios_seek_end fb
      deps.foldl writeDep fc
    | none => f
  write_int32 f' 0

/-- One bit step of the reflected CRC-32c polynomial division
(polynomial `0x82F63B78`). -/
def crc32cBitStep (c : Nat) : Nat :=
  if c % 2 = 1 then (c / 2) ^^^ 0x82F63B78 else c / 2

/-- `n` bit steps. -/
def crc32cRounds : Nat → Nat → Nat
  | 0, c => c
  | n + 1, c => crc32cRounds n (crc32cBitStep c)

/-- Absorb one byte into the CRC state. -/
def crc32cByte (crc b : Nat) : Nat := crc32cRounds 8 (crc ^^^ b % 256)

/-- `jl_crc32c` (software fallback in `crc32c.c`, external to this file):
standard CRC-32c with the usual pre/post inversion, seeded by `crc`. -/
def jl_crc32c (crc : Nat) (data : List Nat) : Nat :=
  (data.foldl crc32cByte (crc ^^^ 0xFFFFFFFF)) ^^^ 0xFFFFFFFF

/-- The incremental patch step of `jl_write_compiler_output`
(`precompile.c:148-157`): compute the checksum of
`[datastartpos, dataendpos)`, overwrite the checksum header field with it
OR'd with the magic constant in the high 32 bits, overwrite the source-text
header field with the data-end offset, then write the source-text block. -/
def jl_write_compiler_output_patch (s : IOS) (checksumpos srctextpos datastartpos : Nat)
    (udeps : Option (List SrcDep)) : IOS :=
  let dataendpos := ios_pos s
  let checksum := jl_crc32c 0 ((s.buf.drop datastartpos).take (dataendpos - datastartpos))
  let s1 := ios_seek s checksumpos
  let s2 := write_uint64 s1 (checksum ||| (0xfafbfcfd <<< 32))
  let s3 := ios_seek s2 srctextpos
  let s4 := write_uint64 s3 dataendpos
  write_srctext s4 udeps srctextpos

/-- Take `k` bytes off the front of a stream, if available. -/
def readBytes (k : Nat) (s : List Nat) : Option (List Nat × List Nat) :=
  if k ≤ s.length then some (s.take k, s.drop k) else none

/-- Read the source-text block back: a sequence of
`[int32 path length][path][uint64 content length][content]` records,
terminated by a zero-length sentinel.  Returns the records and the part of
the stream after the sentinel. -/
def readSrcRecords : Nat → List Nat → Option (List (List Nat × List Nat) × List Nat)
  | 0, _ => none
  | fuel + 1, s =>
    match readBytes 4 s with
    | none => none
    | some (lenb, s1) =>
      if fromLE lenb = 0 then some ([], s1)
      else
        match readBytes (fromLE lenb) s1 with
        | none => none
        | some (path, s2) =>
          match readBytes 8 s2 with
          | none => none
          | some (clenb, s3) =>
            match readBytes (fromLE clenb) s3 with
            | none => none
            | some (content, s4) =>
              (readSrcRecords fuel s4).map fun out => ((path, content) :: out.1, out.2)

/-- The 64-bit field at offset `p` of a byte buffer. -/
def readUInt64At (buf : List Nat) (p : Nat) : Nat := fromLE ((buf.drop p).take 8)

/-- Whether a dependency entry is actually written by `write_srctext`. -/
def depIncluded (d : SrcDep) : Bool :=
  !d.isMainModule && d.path.headD 0 != 0 && d.openable

/-- The final on-disk bytes of one dependency record. -/
def depRecordBytes (d : SrcDep) : List Nat :=
  if depIncluded d then
    toLE 4 d.path.length ++ d.path ++ toLE 8 d.content.length ++ d.content
  else []

/-- Path and content of the dependencies that get written. -/
def includedFiles (deps : List SrcDep) : List (List Nat × List Nat) :=
  (deps.filter depIncluded).map fun d => (d.path, d.content)

/-- The decision `_compile_all_tvar_union` makes for one tried environment:
`some t` exactly when instantiation succeeds with `t`, `t` has a concrete
subtype and `t` is itself concrete — i.e. when `jl_compile_hint` is reached. -/
def hintFn (o : Oracle) (sigbody : JType) (env : List (Nat × JType)) : Option JType :=
  match o.instantiate sigbody env with
  | none => none
  | some t =>
    if o.hasConcreteSubtype t then
      (if jl_is_concrete_type t then some t else none)
    else none

/-! ## Concrete inputs used by closed theorems -/

/-- A concrete leaf datatype atom. -/
def dtA : JType := .datatype true false false false 0

/-- A concrete leaf datatype atom. -/
def dtB : JType := .datatype true false false false 1

/-- A concrete leaf datatype atom. -/
def dtC : JType := .datatype true false false false 2

/-- A concrete leaf datatype atom. -/
def dtD : JType := .datatype true false false false 3

/-- A concrete leaf datatype atom. -/
def dtE : JType := .datatype true false false false 4

/-- An abstract (non-concrete, non-kind) datatype atom. -/
def absF : JType := .datatype false false false false 5

/-- `Tuple{Union{A,B}, Union{C,D,E}}`: two union parameters with 2 and 3
alternatives and no `UnionAll` wrapper. -/
def sigC1 : JType := .tuple [.uniontype dtA dtB, .uniontype dtC (.uniontype dtD dtE)]

/-- `Tuple{Union{A,B}, C}`: one union parameter next to a concrete leaf
parameter. -/
def sigLeafUnion : JType := .tuple [.uniontype dtA dtB, dtC]

/-- `Union{A, F}` with `A` concrete and `F` abstract. -/
def ubC9 : JType := .uniontype dtA absF

/-- `Tuple{T} where T <: Union{A, F}`. -/
def sigC9 : JType := .unionall 0 .bottom ubC9 (.tuple [.tvar 0 .bottom ubC9])

/-- The instantiation produced for the narrowed-variable binding of the
abstract alternative `F`. -/
def tAbsC9 : JType := .tuple [.tvar 0 .bottom absF]

/-- A type-system oracle for `sigC9`: substitution simply tuples the single
binding, and every one-parameter tuple except `Tuple{Union{}}` has a concrete
subtype. -/
def oracleC9 : Oracle where
  instantiate := fun _ env =>
    match env with
    | [(_, b)] => some (.tuple [b])
    | _ => none
  hasConcreteSubtype := fun t =>
    match t with
    | .tuple [x] => !is_bottom x
    | _ => false

/-- A method named `__init__` whose signature is not a dispatch tuple type
and whose specialization list is empty. -/
def mC3 : JMethod := ⟨0, "__init__", false, false, [], ⟨100, []⟩⟩

/-- A method named `__init__` with a dispatch-tuple signature and no
specializations (nothing was executed for it during the run). -/
def mC3w : JMethod := ⟨1, "__init__", false, true, [], ⟨101, []⟩⟩

/-- A full-sweep method with a generic body whose declared signature is
already a compileable dispatch signature, and whose unspecialized fallback
exists. -/
def mC6 : CMethod := ⟨0, dtA, true, true, some ⟨7, []⟩⟩

/-- A full-sweep method with a generic body and a non-compileable declared
signature whose unspecialized fallback exists. -/
def mC6w : CMethod := ⟨1, sigC1, true, false, some ⟨8, []⟩⟩

/-! ## Byte and stream lemmas -/

theorem toLE_length (w : Nat) : ∀ n, (toLE w n).length = w := by
  induction w with
  | zero => intro n; rfl
  | succ w ih => intro n; simp [toLE, ih]

theorem fromLE_toLE (w : Nat) : ∀ n, fromLE (toLE w n) = n % 256 ^ w := by
  induction w with
  | zero => intro n; simp [toLE, fromLE, Nat.mod_one]
  | succ w ih =>
    intro n
    rw [toLE, fromLE, ih, Nat.pow_succ', Nat.mod_mul]
    omega

theorem ios_write_at_end (f : IOS) (b : List Nat) (h : f.pos = f.buf.length) :
    ios_write f b = ⟨f.buf ++ b, f.buf.length + b.length⟩ := by
  unfold ios_write
  rw [h, List.take_length, List.drop_eq_nil_of_le (Nat.le_add_right _ _), List.append_nil]

theorem interiorWrite_length {l b : List Nat} {p : Nat} (h : p + b.length ≤ l.length) :
    (l.take p ++ b ++ l.drop (p + b.length)).length = l.length := by
  simp only [List.length_append, List.length_take, List.length_drop]
  omega

theorem interiorWrite_drop_ge {l b : List Nat} {p q : Nat} (h : p + b.length ≤ l.length)
    (hq : p + b.length ≤ q) :
    (l.take p ++ b ++ l.drop (p + b.length)).drop q = l.drop q := by
  have hp : (l.take p).length = p := by simp; omega
  rw [List.append_assoc, List.drop_append_eq_append_drop,
    List.drop_eq_nil_of_le (by rw [hp]; omega), List.nil_append, hp,
    List.drop_append_eq_append_drop, List.drop_eq_nil_of_le (by omega), List.nil_append,
    List.drop_drop]
  congr 1
  omega

theorem interiorWrite_read {l b : List Nat} {p : Nat} (h : p ≤ l.length) :
    ((l.take p ++ b ++ l.drop (p + b.length)).drop p).take b.length = b := by
  rw [List.append_assoc, List.drop_left' (by simp; omega)]
  exact List.take_left' rfl

theorem readUInt64At_interior {l b : List Nat} {p : Nat} (h8 : b.length = 8)
    (h : p ≤ l.length) :
    readUInt64At (l.take p ++ b ++ l.drop (p + b.length)) p = fromLE b := by
  rw [readUInt64At, ← h8, interiorWrite_read h]

theorem readUInt64At_append {l s : List Nat} {p : Nat} (h : p + 8 ≤ l.length) :
    readUInt64At (l ++ s) p = readUInt64At l p := by
  rw [readUInt64At, readUInt64At, List.drop_append_eq_append_drop,
    Nat.sub_eq_zero_of_le (by omega), List.drop_zero,
    List.take_append_eq_append_take,
    Nat.sub_eq_zero_of_le (by simp; omega), List.take_zero, List.append_nil]

theorem crc32cBitStep_lt {c : Nat} (h : c < 2 ^ 32) : crc32cBitStep c < 2 ^ 32 := by
  unfold crc32cBitStep
  split
  · exact Nat.xor_lt_two_pow (by omega) (by norm_num)
  · omega

theorem crc32cRounds_lt (n : Nat) : ∀ {c}, c < 2 ^ 32 → crc32cRounds n c < 2 ^ 32 := by
  induction n with
  | zero => intro c h; exact h
  | succ n ih => intro c h; exact ih (crc32cBitStep_lt h)

theorem crc32cByte_lt {crc b : Nat} (h : crc < 2 ^ 32) : crc32cByte crc b < 2 ^ 32 :=
  crc32cRounds_lt 8 (Nat.xor_lt_two_pow h (by have := Nat.mod_lt b (y := 256); omega))

theorem crc32c_foldl_lt {init : Nat} (data : List Nat) (h : init < 2 ^ 32) :
    data.foldl crc32cByte init < 2 ^ 32 := by
  induction data generalizing init with
  | nil => exact h
  | cons b bs ih => exact ih (crc32cByte_lt h)

theorem jl_crc32c_lt {crc : Nat} (data : List Nat) (h : crc < 2 ^ 32) :
    jl_crc32c crc data < 2 ^ 32 :=
  Nat.xor_lt_two_pow (crc32c_foldl_lt data (Nat.xor_lt_two_pow h (by norm_num))) (by norm_num)

theorem lor_magic_lt {a : Nat} (h : a < 2 ^ 32) : a ||| 0xfafbfcfd <<< 32 < 2 ^ 64 :=
  Nat.or_lt_two_pow (by omega) (by rw [Nat.shiftLeft_eq]; norm_num)

theorem lor_magic_mod {a : Nat} (h : a < 2 ^ 32) : (a ||| 0xfafbfcfd <<< 32) % 2 ^ 32 = a := by
  apply Nat.eq_of_testBit_eq
  intro i
  simp only [Nat.testBit_mod_two_pow, Nat.testBit_lor, Nat.testBit_shiftLeft, ge_iff_le]
  by_cases hi : i < 32
  · have h32 : ¬32 ≤ i := by omega
    simp [hi, h32]
  · have hbit : a.testBit i = false :=
      Nat.testBit_lt_two_pow
        (Nat.lt_of_lt_of_le h (Nat.pow_le_pow_right (by norm_num) (by omega)))
    simp [hi, hbit]

theorem ios_write_at_end' {B : List Nat} {p : Nat} (b : List Nat) (h : p = B.length) :
    ios_write ⟨B, p⟩ b = ⟨B ++ b, p + b.length⟩ := by
  subst h; exact ios_write_at_end ⟨B, _⟩ b rfl

theorem ios_write_patch {A mid rest b : List Nat} {p : Nat} (hp : p = A.length)
    (hlen : b.length = mid.length) :
    ios_write ⟨A ++ mid ++ rest, p⟩ b = ⟨A ++ b ++ rest, p + b.length⟩ := by
  subst hp
  unfold ios_write
  dsimp only
  rw [List.append_assoc A mid rest, List.take_left' rfl,
    ← List.append_assoc A mid rest, List.drop_left' (by simp [hlen])]

theorem writeDep_at_end (f : IOS) (d : SrcDep) (h : f.pos = f.buf.length) :
    writeDep f d = ⟨f.buf ++ depRecordBytes d, (f.buf ++ depRecordBytes d).length⟩ := by
  obtain ⟨buf, pos⟩ := f
  simp only at h
  subst h
  by_cases h1 : d.isMainModule = true
  · simp [writeDep, depRecordBytes, depIncluded, h1]
  · by_cases h2 : d.path.headD 0 = 0
    · have h2' : d.path.head?.getD 0 = 0 := by
        simpa [List.headD_eq_head?_getD] using h2
      simp [writeDep, depRecordBytes, depIncluded, h1, h2, h2']
    · by_cases h3 : d.openable = true
      · have e1 : write_int32 ⟨buf, buf.length⟩ d.path.length
            = ⟨buf ++ toLE 4 d.path.length, buf.length + 4⟩ := by
          rw [write_int32, ios_write_at_end' _ rfl, toLE_length]
        have e2 : ios_write ⟨buf ++ toLE 4 d.path.length, buf.length + 4⟩ d.path
            = ⟨buf ++ toLE 4 d.path.length ++ d.path, buf.length + 4 + d.path.length⟩ := by
          rw [ios_write_at_end' _ (by simp [toLE_length])]
        have e3 : write_uint64 ⟨buf ++ toLE 4 d.path.length ++ d.path,
              buf.length + 4 + d.path.length⟩ 0
            = ⟨buf ++ toLE 4 d.path.length ++ d.path ++ toLE 8 0,
               buf.length + 4 + d.path.length + 8⟩ := by
          rw [write_uint64, ios_write_at_end' _ (by simp [toLE_length]; omega), toLE_length]
        have e4 : ios_write ⟨buf ++ toLE 4 d.path.length ++ d.path ++ toLE 8 0,
              buf.length + 4 + d.path.length + 8⟩ d.content
            = ⟨buf ++ toLE 4 d.path.length ++ d.path ++ toLE 8 0 ++ d.content,
               buf.length + 4 + d.path.length + 8 + d.content.length⟩ := by
          rw [ios_write_at_end' _ (by simp [toLE_length]; omega)]
        have e5 : write_uint64 ⟨buf ++ toLE 4 d.path.length ++ d.path ++ toLE 8 0 ++ d.content,
              buf.length + 4 + d.path.length⟩ d.content.length
            = ⟨buf ++ toLE 4 d.path.length ++ d.path ++ toLE 8 d.content.length ++ d.content,
               buf.length + 4 + d.path.length + 8⟩ := by
          rw [write_uint64,
            ios_write_patch (A := buf ++ toLE 4 d.path.length ++ d.path)
              (by simp [toLE_length]; omega) (by simp [toLE_length]), toLE_length]
        unfold writeDep
        rw [if_neg h1, if_neg h2, if_neg (by simp [h3])]
        dsimp only
        rw [e1, e2]
        dsimp only [ios_pos]
        rw [e3, e4]
        dsimp only [ios_seek]
        rw [e5]
        dsimp only [ios_seek_end]
        have hinc : depIncluded d = true := by
          simp only [depIncluded, Bool.and_eq_true, Bool.not_eq_true', bne_iff_ne]
          refine ⟨⟨by simpa using h1, ?_⟩, h3⟩
          simpa [List.headD_eq_head?_getD] using h2
        simp [depRecordBytes, hinc, List.append_assoc]
      · have h3' : d.openable = false := by simp at h3; exact h3
        simp [writeDep, depRecordBytes, depIncluded, h1, h2, h3']

theorem foldl_writeDep_at_end (deps : List SrcDep) :
    ∀ (f : IOS), f.pos = f.buf.length →
      deps.foldl writeDep f
        = ⟨f.buf ++ deps.flatMap depRecordBytes,
           (f.buf ++ deps.flatMap depRecordBytes).length⟩ := by
  induction deps with
  | nil => intro f h; simp [← h]
  | cons d rest ih =>
    intro f h
    rw [List.foldl_cons, writeDep_at_end f d h, ih _ (by simp)]
    simp [List.flatMap_cons, List.append_assoc]

/-- The byte-level effect of `write_srctext` with a dependency list present:
the header field at `srctextpos` is patched in place and the dependency
records plus sentinel are appended at the end of the buffer. -/
theorem write_srctext_spec (f : IOS) (deps : List SrcDep) (p : Nat)
    (hp : p + 8 ≤ f.buf.length) :
    write_srctext f (some deps) p
      = ⟨(f.buf.take p ++ toLE 8 f.pos ++ f.buf.drop (p + 8))
           ++ (deps.flatMap depRecordBytes ++ toLE 4 0),
         ((f.buf.take p ++ toLE 8 f.pos ++ f.buf.drop (p + 8))
           ++ (deps.flatMap depRecordBytes ++ toLE 4 0)).length⟩ := by
  unfold write_srctext
  dsimp only [ios_pos, ios_seek, ios_seek_end]
  have e1 : ios_write ⟨f.buf, p⟩ (toLE 8 f.pos)
      = ⟨f.buf.take p ++ toLE 8 f.pos ++ f.buf.drop (p + 8), p + 8⟩ := by
    unfold ios_write
    dsimp only
    rw [toLE_length]
  rw [write_uint64, e1]
  dsimp only
  have hlen : (f.buf.take p ++ toLE 8 f.pos ++ f.buf.drop (p + 8)).length
      = f.buf.length := interiorWrite_length (by simpa [toLE_length] using hp)
  rw [foldl_writeDep_at_end _ _ rfl, write_int32,
    ios_write_at_end' _ (by simp), toLE_length]
  simp [List.append_assoc, toLE_length]
  omega

theorem readBytes_exact {a : List Nat} (b : List Nat) {k : Nat} (h : a.length = k) :
    readBytes k (a ++ b) = some (a, b) := by
  unfold readBytes
  rw [if_pos (by simp [← h]), List.take_left' h, List.drop_left' h]

theorem readSrcRecords_spec (deps : List SrcDep) :
    ∀ (fuel : Nat) (extra : List Nat),
      (∀ d ∈ deps, depIncluded d = true → d.path.length < 2 ^ 32 ∧ d.content.length < 2 ^ 64) →
      deps.length + 1 ≤ fuel →
      readSrcRecords fuel (deps.flatMap depRecordBytes ++ (toLE 4 0 ++ extra))
        = some (includedFiles deps, extra) := by
  induction deps with
  | nil =>
    intro fuel extra _ hfuel
    match fuel, hfuel with
    | f + 1, _ =>
      rw [List.flatMap_nil, List.nil_append, readSrcRecords,
        readBytes_exact _ (toLE_length 4 0)]
      simp [fromLE_toLE, includedFiles]
  | cons d rest ih =>
    intro fuel extra hsz hfuel
    match fuel, hfuel with
    | f + 1, hfuel =>
      by_cases hd : depIncluded d = true
      · obtain ⟨hplen, hclen⟩ := hsz d (by simp) hd
        have hpne : d.path.length ≠ 0 := by
          intro h0
          have hnil : d.path = [] := List.eq_nil_of_length_eq_zero h0
          rw [depIncluded, hnil] at hd
          simp at hd
        have hbytes : depRecordBytes d
            = toLE 4 d.path.length ++ d.path ++ toLE 8 d.content.length ++ d.content := by
          rw [depRecordBytes, if_pos hd]
        rw [List.flatMap_cons, hbytes]
        simp only [List.append_assoc]
        rw [readSrcRecords, readBytes_exact _ (toLE_length 4 d.path.length)]
        dsimp only
        rw [fromLE_toLE,
          Nat.mod_eq_of_lt (by rw [show (256:Nat)^4 = 2^32 from by norm_num]; exact hplen),
          if_neg hpne, readBytes_exact _ rfl]
        dsimp only
        rw [readBytes_exact _ (toLE_length 8 d.content.length)]
        dsimp only
        rw [fromLE_toLE,
          Nat.mod_eq_of_lt (by rw [show (256:Nat)^8 = 2^64 from by norm_num]; exact hclen),
          readBytes_exact _ rfl]
        dsimp only
        rw [ih f extra (fun x hx h => hsz x (by simp [hx]) h) (by simp at hfuel; omega)]
        have : includedFiles (d :: rest) = (d.path, d.content) :: includedFiles rest := by
          simp [includedFiles, hd]
        rw [this]
        rfl
      · have hbytes : depRecordBytes d = [] := by
          rw [depRecordBytes, if_neg hd]
        rw [List.flatMap_cons, hbytes, List.nil_append]
        have : includedFiles (d :: rest) = includedFiles rest := by
          simp [includedFiles, List.filter_cons, hd]
        rw [this]
        exact ih _ extra (fun x hx h => hsz x (by simp [hx]) h) (by simp at hfuel; omega)

theorem write_uint64_at (B : List Nat) (q p v : Nat) :
    write_uint64 (ios_seek ⟨B, q⟩ p) v = ⟨B.take p ++ toLE 8 v ++ B.drop (p + 8), p + 8⟩ := by
  unfold write_uint64 ios_write ios_seek
  dsimp only
  rw [toLE_length]

theorem write_int32_at (B : List Nat) (p v : Nat) :
    write_int32 ⟨B, p⟩ v = ⟨B.take p ++ toLE 4 v ++ B.drop (p + 4), p + 4⟩ := by
  unfold write_int32 ios_write
  dsimp only
  rw [toLE_length]

theorem readUInt64At_patch8 {l : List Nat} {p v : Nat} (h : p ≤ l.length) :
    readUInt64At (l.take p ++ toLE 8 v ++ l.drop (p + 8)) p = fromLE (toLE 8 v) := by
  conv_lhs => rw [show p + 8 = p + (toLE 8 v).length by rw [toLE_length]]
  exact readUInt64At_interior (toLE_length 8 v) h

theorem drop_patch8 {l : List Nat} {p q v : Nat} (h : p + 8 ≤ l.length) (hq : p + 8 ≤ q) :
    (l.take p ++ toLE 8 v ++ l.drop (p + 8)).drop q = l.drop q := by
  conv_lhs => rw [show p + 8 = p + (toLE 8 v).length by rw [toLE_length]]
  exact interiorWrite_drop_ge (by rw [toLE_length]; omega) (by rw [toLE_length]; omega)

theorem drop_patch4 {l : List Nat} {p q v : Nat} (h : p + 4 ≤ l.length) (hq : p + 4 ≤ q) :
    (l.take p ++ toLE 4 v ++ l.drop (p + 4)).drop q = l.drop q := by
  conv_lhs => rw [show p + 4 = p + (toLE 4 v).length by rw [toLE_length]]
  exact interiorWrite_drop_ge (by rw [toLE_length]; omega) (by rw [toLE_length]; omega)

theorem slice_append {X r : List Nat} {q m : Nat} (h : q + m ≤ X.length) :
    ((X ++ r).drop q).take m = (X.drop q).take m := by
  rw [List.drop_append_eq_append_drop, Nat.sub_eq_zero_of_le (by omega), List.drop_zero,
    List.take_append_eq_append_take, Nat.sub_eq_zero_of_le (by simp; omega), List.take_zero,
    List.append_nil]

/-- Claim C4: the source-text block written by `write_srctext` consists, per
included dependency (root-module entries, empty paths and unopenable files
are skipped), of `[int32 path-length][path bytes][uint64 byte-count, patched
after copying][file bytes]`, terminated by an `int32 0` sentinel; reading the
block back reproduces each included file's path and content exactly, and the
sentinel halts consumption exactly at the end of the block, leaving any
trailing bytes untouched. -/
theorem C4_srctext_roundtrip (f : IOS) (deps : List SrcDep) (p : Nat) (extra : List Nat)
    (hp : p + 8 ≤ f.buf.length)
    (hsz : ∀ d ∈ deps, depIncluded d = true →
      d.path.length < 2 ^ 32 ∧ d.content.length < 2 ^ 64) :
    (write_srctext f (some deps) p).buf.drop f.buf.length
        = deps.flatMap depRecordBytes ++ toLE 4 0
    ∧ readSrcRecords (deps.length + 1)
        ((write_srctext f (some deps) p).buf.drop f.buf.length ++ extra)
        = some (includedFiles deps, extra) := by
  have hlen : (f.buf.take p ++ toLE 8 f.pos ++ f.buf.drop (p + 8)).length = f.buf.length := by
    simp only [List.length_append, List.length_take, List.length_drop, toLE_length]
    omega
  have hdrop : (write_srctext f (some deps) p).buf.drop f.buf.length
      = deps.flatMap depRecordBytes ++ toLE 4 0 := by
    rw [write_srctext_spec f deps p hp]
    dsimp only
    rw [List.drop_left' hlen]
  refine ⟨hdrop, ?_⟩
  rw [hdrop, List.append_assoc]
  exact readSrcRecords_spec deps _ extra hsz (by omega)

/-- Claim C5: after the incremental patch step of `jl_write_compiler_output`,
the 64-bit value stored at the checksum header position equals the CRC-32c of
the byte range `[data-start, data-end)` OR'd with the magic constant
`0xfafbfcfd` in the high 32 bits; equivalently, that stored value with the
magic bits removed (`% 2^32`) equals a recomputation of the CRC-32c over the
`[data-start, data-end)` range of the final artifact (the patches land in the
header, before `data-start`, and the appended source text after `data-end`,
so the stored range is unchanged). -/
theorem C5_checksum_invariant (s : IOS) (checksumpos srctextpos datastartpos : Nat)
    (udeps : Option (List SrcDep))
    (hend : s.pos = s.buf.length)
    (h1 : srctextpos + 12 ≤ checksumpos)
    (h2 : checksumpos + 8 ≤ datastartpos)
    (h3 : datastartpos ≤ s.buf.length) :
    readUInt64At
        (jl_write_compiler_output_patch s checksumpos srctextpos datastartpos udeps).buf
        checksumpos
      = jl_crc32c 0 ((s.buf.drop datastartpos).take (s.buf.length - datastartpos))
          ||| 0xfafbfcfd <<< 32
    ∧ readUInt64At
        (jl_write_compiler_output_patch s checksumpos srctextpos datastartpos udeps).buf
        checksumpos % 2 ^ 32
      = jl_crc32c 0
          (((jl_write_compiler_output_patch s checksumpos srctextpos datastartpos
              udeps).buf.drop datastartpos).take (s.buf.length - datastartpos)) := by
  obtain ⟨B, pos⟩ := s
  simp only at hend h3 ⊢
  subst hend
  have hcrc : jl_crc32c 0 ((B.drop datastartpos).take (B.length - datastartpos)) < 2 ^ 32 :=
    jl_crc32c_lt _ (by norm_num)
  set V := jl_crc32c 0 ((B.drop datastartpos).take (B.length - datastartpos))
      ||| 0xfafbfcfd <<< 32 with hVdef
  set buf2 := B.take checksumpos ++ toLE 8 V ++ B.drop (checksumpos + 8) with hbuf2
  set buf4 := buf2.take srctextpos ++ toLE 8 B.length ++ buf2.drop (srctextpos + 8) with hbuf4
  have hl2 : buf2.length = B.length := by
    rw [hbuf2]
    simp only [List.length_append, List.length_take, List.length_drop, toLE_length]
    omega
  have hl4 : buf4.length = B.length := by
    rw [hbuf4]
    simp only [List.length_append, List.length_take, List.length_drop, toLE_length]
    omega
  have hstep : jl_write_compiler_output_patch ⟨B, B.length⟩ checksumpos srctextpos
      datastartpos udeps = write_srctext ⟨buf4, srctextpos + 8⟩ udeps srctextpos := by
    unfold jl_write_compiler_output_patch
    dsimp only [ios_pos]
    rw [write_uint64_at, write_uint64_at]
  have hdrop42 : ∀ q, srctextpos + 8 ≤ q → buf4.drop q = buf2.drop q := by
    intro q hq
    rw [hbuf4]
    exact drop_patch8 (by omega) hq
  have hdrop2B : ∀ q, checksumpos + 8 ≤ q → buf2.drop q = B.drop q := by
    intro q hq
    rw [hbuf2]
    exact drop_patch8 (by omega) hq
  have hread2 : readUInt64At buf2 checksumpos = fromLE (toLE 8 V) := by
    rw [hbuf2]
    exact readUInt64At_patch8 (by omega)
  have hVlt : V < 2 ^ 64 := lor_magic_lt hcrc
  have hfrom : fromLE (toLE 8 V) = V := by
    rw [fromLE_toLE]
    exact Nat.mod_eq_of_lt (by rw [show (256:Nat)^8 = 2^64 from by norm_num]; exact hVlt)
  rw [hstep]
  cases udeps with
  | none =>
    have hw : write_srctext ⟨buf4, srctextpos + 8⟩ none srctextpos
        = ⟨buf4.take (srctextpos + 8) ++ toLE 4 0 ++ buf4.drop (srctextpos + 8 + 4),
           srctextpos + 8 + 4⟩ := by
      unfold write_srctext
      dsimp only
      rw [write_int32_at]
    rw [hw]
    dsimp only
    have hWcp : (buf4.take (srctextpos + 8) ++ toLE 4 0
        ++ buf4.drop (srctextpos + 8 + 4)).drop checksumpos = buf2.drop checksumpos := by
      rw [drop_patch4 (by omega) (by omega), hdrop42 checksumpos (by omega)]
    have hWdsp : (buf4.take (srctextpos + 8) ++ toLE 4 0
        ++ buf4.drop (srctextpos + 8 + 4)).drop datastartpos = B.drop datastartpos := by
      rw [drop_patch4 (by omega) (by omega), hdrop42 datastartpos (by omega),
        hdrop2B datastartpos (by omega)]
    have hreadW : readUInt64At (buf4.take (srctextpos + 8) ++ toLE 4 0
        ++ buf4.drop (srctextpos + 8 + 4)) checksumpos = V := by
      unfold readUInt64At at hread2 ⊢
      rw [hWcp, ← hfrom, hread2]
    rw [hreadW, hWdsp]
    exact ⟨rfl, lor_magic_mod hcrc⟩
  | some deps =>
    have hw := write_srctext_spec ⟨buf4, srctextpos + 8⟩ deps srctextpos
      (by dsimp only; omega)
    rw [hw]
    dsimp only
    set P := buf4.take srctextpos ++ toLE 8 (srctextpos + 8)
        ++ buf4.drop (srctextpos + 8) with hPdef
    have hlP : P.length = B.length := by
      rw [hPdef]
      simp only [List.length_append, List.length_take, List.length_drop, toLE_length]
      omega
    have hPcp : P.drop checksumpos = buf2.drop checksumpos := by
      rw [hPdef]
      rw [drop_patch8 (by omega) (by omega), hdrop42 checksumpos (by omega)]
    have hPdsp : P.drop datastartpos = B.drop datastartpos := by
      rw [hPdef]
      rw [drop_patch8 (by omega) (by omega), hdrop42 datastartpos (by omega),
        hdrop2B datastartpos (by omega)]
    have hreadW : readUInt64At (P ++ (deps.flatMap depRecordBytes ++ toLE 4 0))
        checksumpos = V := by
      rw [readUInt64At_append (by omega)]
      unfold readUInt64At at hread2 ⊢
      rw [hPcp, ← hfrom, hread2]
    have hslice : ((P ++ (deps.flatMap depRecordBytes ++ toLE 4 0)).drop
        datastartpos).take (B.length - datastartpos)
        = (B.drop datastartpos).take (B.length - datastartpos) := by
      rw [slice_append (by omega), hPdsp]
    rw [hreadW, hslice]
    exact ⟨rfl, lor_magic_mod hcrc⟩

/-- Witness for claim C4: a 12-byte stream, one included dependency
(path `[97, 98]`, content `[1, 2, 3]`), one root-module dependency and one
unopenable dependency; the block reads back as exactly the included file with
the trailing bytes `[9, 9]` untouched. -/
theorem C4_srctext_roundtrip_witness :
    (2 + 8 ≤ (IOS.mk (List.replicate 12 7) 12).buf.length)
    ∧ (∀ d ∈ [SrcDep.mk false [97, 98] true [1, 2, 3], SrcDep.mk true [99] true [4],
          SrcDep.mk false [100] false [5]],
        depIncluded d = true → d.path.length < 2 ^ 32 ∧ d.content.length < 2 ^ 64)
    ∧ ((write_srctext (IOS.mk (List.replicate 12 7) 12)
          (some [SrcDep.mk false [97, 98] true [1, 2, 3], SrcDep.mk true [99] true [4],
            SrcDep.mk false [100] false [5]]) 2).buf.drop
            (IOS.mk (List.replicate 12 7) 12).buf.length
          = [SrcDep.mk false [97, 98] true [1, 2, 3], SrcDep.mk true [99] true [4],
              SrcDep.mk false [100] false [5]].flatMap depRecordBytes ++ toLE 4 0
        ∧ readSrcRecords
            ([SrcDep.mk false [97, 98] true [1, 2, 3], SrcDep.mk true [99] true [4],
               SrcDep.mk false [100] false [5]].length + 1)
            ((write_srctext (IOS.mk (List.replicate 12 7) 12)
                (some [SrcDep.mk false [97, 98] true [1, 2, 3],
                  SrcDep.mk true [99] true [4], SrcDep.mk false [100] false [5]]) 2).buf.drop
                (IOS.mk (List.replicate 12 7) 12).buf.length ++ [9, 9])
            = some (includedFiles [SrcDep.mk false [97, 98] true [1, 2, 3],
                SrcDep.mk true [99] true [4], SrcDep.mk false [100] false [5]], [9, 9])) :=
  ⟨by decide, by decide,
   C4_srctext_roundtrip (IOS.mk (List.replicate 12 7) 12)
     [SrcDep.mk false [97, 98] true [1, 2, 3], SrcDep.mk true [99] true [4],
       SrcDep.mk false [100] false [5]] 2 [9, 9] (by decide) (by decide)⟩

/-- Witness for claim C5: a 28-byte stream with the source-text field at 0,
the checksum field at 12 and the data range `[20, 28)`, patched with no
dependency list. -/
theorem C5_checksum_invariant_witness :
    ((IOS.mk (List.replicate 28 9) 28).pos = (IOS.mk (List.replicate 28 9) 28).buf.length
      ∧ 0 + 12 ≤ 12 ∧ 12 + 8 ≤ 20 ∧ 20 ≤ (IOS.mk (List.replicate 28 9) 28).buf.length)
    ∧ (readUInt64At
        (jl_write_compiler_output_patch (IOS.mk (List.replicate 28 9) 28) 12 0 20 none).buf 12
        = jl_crc32c 0 (((IOS.mk (List.replicate 28 9) 28).buf.drop 20).take
            ((IOS.mk (List.replicate 28 9) 28).buf.length - 20)) ||| 0xfafbfcfd <<< 32
      ∧ readUInt64At
          (jl_write_compiler_output_patch (IOS.mk (List.replicate 28 9) 28) 12 0 20 none).buf 12
            % 2 ^ 32
        = jl_crc32c 0
            (((jl_write_compiler_output_patch (IOS.mk (List.replicate 28 9) 28)
                12 0 20 none).buf.drop 20).take
              ((IOS.mk (List.replicate 28 9) 28).buf.length - 20))) :=
  ⟨⟨by decide, by decide, by decide, by decide⟩,
   C5_checksum_invariant (IOS.mk (List.replicate 28 9) 28) 12 0 20 none
     (by decide) (by decide) (by decide) (by decide)⟩

/-! ## Mixed-radix counter lemmas -/

theorem jl_count_union_components_pos : ∀ t, 0 < jl_count_union_components t
  | .bottom => Nat.one_pos
  | .datatype _ _ _ _ _ => Nat.one_pos
  | .uniontype a b => by
    rw [jl_count_union_components]
    have := jl_count_union_components_pos a
    omega
  | .tvar _ _ _ => Nat.one_pos
  | .tuple _ => Nat.one_pos
  | .unionall _ _ _ _ => Nat.one_pos

theorem unionCounts_pos : ∀ (params : List JType), ∀ c ∈ unionCounts params, 0 < c := by
  intro params
  induction params with
  | nil => intro c hc; simp [unionCounts] at hc
  | cons ty rest ih =>
    intro c hc
    rw [unionCounts] at hc
    by_cases hu : jl_is_uniontype ty = true
    · rw [if_pos hu] at hc
      rcases List.mem_cons.mp hc with h | h
      · rw [h]; exact jl_count_union_components_pos ty
      · exact ih c h
    · rw [if_neg hu] at hc
      exact ih c hc

theorem scanParams_count : ∀ (params : List JType) (cu : Nat),
    scanParams params = some cu → cu = (unionCounts params).length := by
  intro params
  induction params with
  | nil => intro cu h; simp [scanParams] at h; simp [unionCounts, ← h]
  | cons ty rest ih =>
    intro cu h
    rw [scanParams] at h
    rw [unionCounts]
    by_cases hu : jl_is_uniontype ty = true
    · rw [if_pos hu] at h
      rw [if_pos hu]
      rcases Option.map_eq_some'.mp h with ⟨cu', hcu', rfl⟩
      simp [ih cu' hcu']
    · rw [if_neg hu] at h
      rw [if_neg hu]
      by_cases hb : is_bottom ty = true
      · rw [if_pos hb] at h; cases h
      · rw [if_neg hb] at h
        by_cases hl : leaftype_check ty = true
        · rw [if_pos hl] at h; cases h
        · rw [if_neg hl] at h; exact ih cu h

theorem leaftype_check_not_union {ty : JType} (h : leaftype_check ty = true) :
    jl_is_uniontype ty = false ∧ is_bottom ty = false := by
  rw [leaftype_check] at h
  simp only [Bool.and_eq_true] at h
  obtain ⟨⟨hdt, _⟩, _⟩ := h
  cases ty <;> simp_all [jl_is_datatype, jl_is_uniontype, is_bottom]

theorem scanParams_none : ∀ (params : List JType) (ty : JType),
    ty ∈ params → leaftype_check ty = true → scanParams params = none := by
  intro params
  induction params with
  | nil => intro ty h; simp at h
  | cons hd rest ih =>
    intro ty hmem hleaf
    rw [scanParams]
    rcases List.mem_cons.mp hmem with rfl | hmem'
    · obtain ⟨hu, hb⟩ := leaftype_check_not_union hleaf
      rw [if_neg (by simp [hu]), if_neg (by simp [hb]), if_pos hleaf]
    · by_cases hu : jl_is_uniontype hd = true
      · rw [if_pos hu, ih ty hmem' hleaf]
        rfl
      · rw [if_neg hu]
        by_cases hb : is_bottom hd = true
        · rw [if_pos hb]
        · rw [if_neg hb]
          by_cases hl : leaftype_check hd = true
          · rw [if_pos hl]
          · rw [if_neg hl]
            exact ih ty hmem' hleaf

theorem incIdx_length : ∀ (counts idx : List Nat), idx.length = counts.length →
    (incIdx counts idx).1.length = counts.length := by
  intro counts
  induction counts with
  | nil => intro idx h; rfl
  | cons c cs ih =>
    intro idx h
    match idx, h with
    | j :: idx', h =>
      rw [incIdx]
      dsimp only [List.headD_cons, List.tail_cons]
      by_cases hj : j + 1 = c
      · rw [if_pos hj]
        dsimp only [List.length_cons]
        rw [ih idx' (by simpa using h)]
      · rw [if_neg hj]
        simpa using h

theorem unionBodyPass_false : ∀ (params : List JType) (idx : List Nat),
    idx.length = (unionCounts params).length →
    unionBodyPass params idx false = (selectComb params idx, idx, false) := by
  intro params
  induction params with
  | nil =>
    intro idx h
    rw [unionCounts] at h
    rw [List.length_nil, List.length_eq_zero] at h
    subst h
    rfl
  | cons ty rest ih =>
    intro idx h
    rw [unionCounts] at h
    by_cases hu : jl_is_uniontype ty = true
    · rw [if_pos hu] at h
      match idx, h with
      | j :: idx', h =>
        rw [unionBodyPass, if_pos hu, selectComb, if_pos hu]
        simp only [Bool.false_eq_true, if_false, List.headD_cons, List.tail_cons]
        rw [ih idx' (by simpa using h)]
    · rw [if_neg hu] at h
      rw [unionBodyPass, if_neg hu, ih idx h, selectComb, if_neg hu]

theorem unionBodyPass_true : ∀ (params : List JType) (idx : List Nat),
    idx.length = (unionCounts params).length →
    unionBodyPass params idx true
      = (selectComb params idx,
         (incIdx (unionCounts params) idx).1, (incIdx (unionCounts params) idx).2) := by
  intro params
  induction params with
  | nil =>
    intro idx h
    rw [unionCounts] at h ⊢
    rw [List.length_nil, List.length_eq_zero] at h
    subst h
    rfl
  | cons ty rest ih =>
    intro idx h
    rw [unionCounts] at h ⊢
    by_cases hu : jl_is_uniontype ty = true
    · rw [if_pos hu] at h ⊢
      match idx, h with
      | j :: idx', h =>
        rw [unionBodyPass, if_pos hu, selectComb, if_pos hu, incIdx]
        simp only [if_true, List.headD_cons, List.tail_cons]
        by_cases hj : j + 1 = jl_count_union_components ty
        · rw [if_pos hj, if_pos hj]
          simp only []
          rw [ih idx' (by simpa using h)]
        · rw [if_neg hj, if_neg hj]
          simp only []
          rw [unionBodyPass_false rest idx' (by simpa using h)]
    · rw [if_neg hu] at h ⊢
      rw [unionBodyPass, if_neg hu, selectComb, if_neg hu, ih idx h]

theorem digitRun_cycle (c : Nat) (cs : List Nat) :
    ∀ (k : Nat), ∀ (f j : Nat) (v : List Nat), j + (k + 1) = c →
      digitRun (c :: cs) (f + (k + 1)) (j :: v)
        = (if (incIdx cs v).2 then some ((List.range' j (k + 1)).map (· :: v))
           else (digitRun (c :: cs) f (0 :: (incIdx cs v).1)).map
                  (((List.range' j (k + 1)).map (· :: v)) ++ ·)) := by
  intro k
  induction k with
  | zero =>
    intro f j v hj
    rw [digitRun, incIdx]
    dsimp only [List.headD_cons, List.tail_cons]
    rw [if_pos hj]
    by_cases hw : (incIdx cs v).2 = true
    · rw [hw]
      simp
    · rw [Bool.not_eq_true] at hw
      rw [hw]
      simp
  | succ k ihk =>
    intro f j v hj
    have hne : ¬(j + 1 = c) := by omega
    rw [show f + (k + 1 + 1) = (f + (k + 1)) + 1 from by omega, digitRun, incIdx]
    dsimp only [List.headD_cons, List.tail_cons]
    rw [if_neg hne]
    dsimp only
    rw [ihk (f := f) (j := j + 1) v (by omega)]
    rw [List.range'_succ]
    by_cases hw : (incIdx cs v).2 = true
    · rw [hw]
      simp [List.range'_succ]
    · rw [Bool.not_eq_true] at hw
      rw [hw]
      simp [Option.map_map, List.range'_succ]
      rfl

theorem digitRun_cons (c : Nat) (cs : List Nat) (hc : 0 < c) :
    ∀ (f : Nat) (v : List Nat) (S : List (List Nat)), digitRun cs f v = some S →
      digitRun (c :: cs) (c * f) (0 :: v)
        = some (S.flatMap fun u => (List.range c).map (· :: u)) := by
  intro f
  induction f with
  | zero => intro v S h; cases h
  | succ f ihf =>
    intro v S h
    rw [digitRun] at h
    have hsplit : c * (f + 1) = c * f + (c - 1 + 1) := by
      rw [Nat.mul_succ]; omega
    rw [hsplit, digitRun_cycle c cs (c - 1) (c * f) 0 v (by omega)]
    by_cases hw : (incIdx cs v).2 = true
    · simp only [hw, eq_self_iff_true, if_true, Option.some.injEq] at h
      rw [if_pos hw, ← h]
      rw [show c - 1 + 1 = c from by omega]
      simp [List.range_eq_range']
    · rw [Bool.not_eq_true] at hw
      simp only [hw, Bool.false_eq_true] at h
      rw [if_neg (by simp [hw])]
      obtain ⟨S', hS', rfl⟩ := Option.map_eq_some'.mp h
      rw [ihf (incIdx cs v).1 S' hS']
      rw [show c - 1 + 1 = c from by omega]
      simp [List.range_eq_range']

theorem digitRun_full : ∀ (counts : List Nat), (∀ c ∈ counts, 0 < c) →
    digitRun counts (prodCounts counts) (zeroIdx counts) = some (digitSeq counts) := by
  intro counts
  induction counts with
  | nil => intro _; rfl
  | cons c cs ih =>
    intro hpos
    have hc : 0 < c := hpos c (by simp)
    have hz : zeroIdx (c :: cs) = 0 :: zeroIdx cs := rfl
    rw [hz, prodCounts, digitRun_cons c cs hc _ _ _ (ih fun x hx => hpos x (by simp [hx])),
      digitSeq]

theorem digitRun_mono (counts : List Nat) : ∀ (f k : Nat) (idx : List Nat)
    (S : List (List Nat)), digitRun counts f idx = some S →
    digitRun counts (f + k) idx = some S := by
  intro f
  induction f with
  | zero => intro k idx S h; cases h
  | succ f ihf =>
    intro k idx S h
    rw [digitRun] at h
    rw [show f + 1 + k = (f + k) + 1 from by omega, digitRun]
    by_cases hw : (incIdx counts idx).2 = true
    · simp only [hw, eq_self_iff_true, if_true] at h ⊢
      exact h
    · rw [Bool.not_eq_true] at hw
      simp only [hw, Bool.false_eq_true] at h ⊢
      obtain ⟨S', hS', rfl⟩ := Option.map_eq_some'.mp h
      rw [ihf k _ S' hS']
      rfl

theorem unionLoop_eq (params : List JType) : ∀ (fuel : Nat) (idx : List Nat)
    (S : List (List Nat)),
    idx.length = (unionCounts params).length →
    digitRun (unionCounts params) fuel idx = some S →
    unionLoop params fuel idx = S.map (selectComb params) := by
  intro fuel
  induction fuel with
  | zero => intro idx S _ h; cases h
  | succ fuel ihf =>
    intro idx S hlen h
    rw [digitRun] at h
    rw [unionLoop, unionBodyPass_true params idx hlen]
    dsimp only
    by_cases hw : (incIdx (unionCounts params) idx).2 = true
    · simp only [hw, eq_self_iff_true, if_true, Option.some.injEq] at h
      rw [if_pos hw, ← h]
      rfl
    · rw [Bool.not_eq_true] at hw
      simp only [hw, Bool.false_eq_true] at h
      obtain ⟨S', hS', rfl⟩ := Option.map_eq_some'.mp h
      rw [if_neg (by simp [hw]),
        ihf _ S' (by rw [incIdx_length _ _ hlen]) hS']
      rfl

/-- The `while (!incr)` loop of `_compile_all_union`, run with fuel
`prodCounts`, enumerates exactly the full mixed-radix combination space, one
`selectComb` selection per digit vector, first union parameter varying
fastest. -/
theorem unionLoop_full (params : List JType) :
    unionLoop params (prodCounts (unionCounts params)) (zeroIdx (unionCounts params))
      = (digitSeq (unionCounts params)).map (selectComb params) :=
  unionLoop_eq params _ _ _ (by simp [zeroIdx])
    (digitRun_full (unionCounts params) (unionCounts_pos params))

/-- Fuel `prodCounts` already runs the loop to its natural termination: more
fuel does not change the enumeration (the counter has wrapped). -/
theorem unionLoop_stable (params : List JType) (k : Nat) :
    unionLoop params (prodCounts (unionCounts params) + k) (zeroIdx (unionCounts params))
      = unionLoop params (prodCounts (unionCounts params)) (zeroIdx (unionCounts params)) := by
  rw [unionLoop_eq params _ _ _ (by simp [zeroIdx])
      (digitRun_mono _ _ k _ _ (digitRun_full (unionCounts params) (unionCounts_pos params))),
    unionLoop_full]

theorem flatMap_range_cons_length (c : Nat) : ∀ (L : List (List Nat)),
    (L.flatMap fun v => (List.range c).map (· :: v)).length = c * L.length := by
  intro L
  induction L with
  | nil => simp
  | cons v L ih => simp [ih, Nat.mul_succ, Nat.add_comm]

theorem digitSeq_length : ∀ (counts : List Nat), (digitSeq counts).length = prodCounts counts
  | [] => rfl
  | c :: cs => by
    rw [digitSeq, prodCounts, flatMap_range_cons_length, digitSeq_length cs]

/-! ## Claims on the union-splitting enumerator -/

/-- Claim C7: if any parameter of the signature's tuple body passes the
pre-scan test of `_compile_all_union` (a datatype without free type variables
that is either a concrete non-kind type or a `Type`-typename datatype), the
signature is abandoned immediately: no combination is enumerated, the
type-variable splitter is never invoked, and nothing is hinted. -/
theorem C7_leaftype_abandons (o : Oracle) (sig : JType)
    (h : ∃ ty ∈ tupleParams (jl_unwrap_unionall sig), leaftype_check ty = true) :
    compile_all_union o sig = ⟨[], []⟩ := by
  obtain ⟨ty, hmem, hty⟩ := h
  unfold compile_all_union
  dsimp only
  rw [scanParams_none _ ty hmem hty]

/-- Witness for claim C7: `Tuple{Union{A,B}, C}` has the concrete leaf
parameter `C`, so it is abandoned with no tvar-splitter call and no hint. -/
theorem C7_leaftype_abandons_witness :
    (∃ ty ∈ tupleParams (jl_unwrap_unionall sigLeafUnion), leaftype_check ty = true)
    ∧ compile_all_union trivialOracle sigLeafUnion = ⟨[], []⟩ :=
  ⟨⟨dtC, by simp [sigLeafUnion, tupleParams, jl_unwrap_unionall], rfl⟩,
   C7_leaftype_abandons trivialOracle sigLeafUnion
     ⟨dtC, by simp [sigLeafUnion, tupleParams, jl_unwrap_unionall], rfl⟩⟩

/-- Claim C8 counterexample: `Tuple{Union{A,B}, C}` has exactly one union
parameter, yet it does not undergo cross-product expansion — the pre-scan
abandons it because of the concrete leaf parameter `C`.  This refutes the
unconditional claim that a signature with between one and five union
parameters undergoes the full cross-product expansion. -/
theorem C8_counterexample :
    (unionCounts (tupleParams (jl_unwrap_unionall sigLeafUnion))).length = 1
    ∧ compile_all_union trivialOracle sigLeafUnion = ⟨[], []⟩ :=
  ⟨rfl, rfl⟩

/-- Claim C8 (amended): provided the pre-scan does not abandon the signature
(`scanParams` returns a count), a signature with zero union parameters or
six-or-more union choices is routed directly — and whole — to the
type-variable splitter, with no cross-product expansion; a signature with
one to five union parameters undergoes the full cross-product expansion:
`_compile_all_tvar_union` is invoked once per element of the complete
mixed-radix combination space, whose size is the product of the union
component counts. -/
theorem C8_routing (o : Oracle) (sig : JType) (cu : Nat)
    (hscan : scanParams (tupleParams (jl_unwrap_unionall sig)) = some cu) :
    ((cu = 0 ∨ 6 ≤ cu) → compile_all_union o sig = ⟨[sig], (compile_all_tvar_union o sig).2⟩)
    ∧ (1 ≤ cu → cu ≤ 5 →
      (compile_all_union o sig).tvarCalls
        = (digitSeq (unionCounts (tupleParams (jl_unwrap_unionall sig)))).map
            (fun ds => jl_rewrap_unionall
              (JType.tuple (selectComb (tupleParams (jl_unwrap_unionall sig)) ds)) sig)
      ∧ (compile_all_union o sig).tvarCalls.length
          = prodCounts (unionCounts (tupleParams (jl_unwrap_unionall sig)))) := by
  constructor
  · intro hroute
    unfold compile_all_union
    dsimp only
    rw [hscan]
    dsimp only
    rw [if_pos hroute]
  · intro hlo hhi
    unfold compile_all_union
    dsimp only
    rw [hscan]
    dsimp only
    rw [if_neg (by omega)]
    dsimp only
    refine ⟨?_, ?_⟩
    · rw [unionLoop_full, List.map_map]
      rfl
    · rw [unionLoop_full, List.length_map, List.length_map, digitSeq_length]

/-- Witness for claim C8: `Tuple{Union{A,B}, Union{C,D,E}}` passes the scan
with two union parameters; routing applies as amended. -/
theorem C8_routing_witness :
    scanParams (tupleParams (jl_unwrap_unionall sigC1)) = some 2
    ∧ (((2 : Nat) = 0 ∨ 6 ≤ 2) →
        compile_all_union trivialOracle sigC1
          = ⟨[sigC1], (compile_all_tvar_union trivialOracle sigC1).2⟩)
    ∧ (1 ≤ 2 → 2 ≤ 5 →
        (compile_all_union trivialOracle sigC1).tvarCalls
          = (digitSeq (unionCounts (tupleParams (jl_unwrap_unionall sigC1)))).map
              (fun ds => jl_rewrap_unionall
                (JType.tuple (selectComb (tupleParams (jl_unwrap_unionall sigC1)) ds)) sigC1)
        ∧ (compile_all_union trivialOracle sigC1).tvarCalls.length
            = prodCounts (unionCounts (tupleParams (jl_unwrap_unionall sigC1)))) :=
  ⟨rfl, (C8_routing trivialOracle sigC1 2 rfl).1, (C8_routing trivialOracle sigC1 2 rfl).2⟩

/-- Claim C1: on `Tuple{Union{A,B}, Union{C,D,E}}` — union parameters with 2
and 3 alternatives and no splittable type variables — the mixed-radix loop of
`_compile_all_union` produces exactly the 2*3 = 6 combinations, each
assigning one alternative to each union parameter (the non-union parameters
are kept fixed).  However, none of those combinations is ever hinted: each
combination is a plain tuple type, `jl_subtype_env_size` is 0 for it, so the
enumeration loop of `_compile_all_tvar_union` (`for (i = 0; i < tvarslen;
...)`, `precompile.c:207`) never executes its body and `jl_compile_hint` is
never reached.  The claim says the combinations are yielded for hinting; the
code yields none of them. -/
theorem C1_combinations_but_no_hints :
    compile_all_union trivialOracle sigC1
      = ⟨[JType.tuple [dtA, dtC], JType.tuple [dtB, dtC], JType.tuple [dtA, dtD],
          JType.tuple [dtB, dtD], JType.tuple [dtA, dtE], JType.tuple [dtB, dtE]],
         []⟩ := rfl

/-- The hinted signatures of the `_compile_all_tvar_union` loop are exactly
the `hintFn` filter of the tried environments, at every fuel. -/
theorem tvarLoop_hints (o : Oracle) (sigbody : JType) :
    ∀ (fuel : Nat) (slots : List TvarSlot),
      (tvarLoop o sigbody fuel slots).2
        = ((tvarLoop o sigbody fuel slots).1).filterMap (hintFn o sigbody) := by
  intro fuel
  induction fuel with
  | zero => intro slots; rfl
  | succ fuel ih =>
    intro slots
    rw [tvarLoop]
    dsimp only
    rw [List.filterMap_cons]
    have hrest : (if (getnext slots).2 = true
        then tvarLoop o sigbody fuel (getnext slots).1 else (([], []) : List (List (Nat × JType)) × List JType)).2
        = ((if (getnext slots).2 = true
            then tvarLoop o sigbody fuel (getnext slots).1
            else (([], []) : List (List (Nat × JType)) × List JType)).1).filterMap
              (hintFn o sigbody) := by
      by_cases hc : (getnext slots).2 = true
      · rw [if_pos hc]
        exact ih _
      · rw [if_neg hc]
        rfl
    cases hi : o.instantiate sigbody (envOf slots) with
    | none => simp [hintFn, hi, hrest]
    | some t =>
      by_cases h1 : o.hasConcreteSubtype t = true
      · by_cases h2 : jl_is_concrete_type t = true
        · simp [hintFn, hi, h1, h2, hrest]
        · simp [hintFn, hi, h1, h2, hrest]
      · simp [hintFn, hi, h1, hrest]

/-- The tried environments do not depend on the oracle (instantiation
failures are caught and skipped: the enumeration always continues). -/
theorem tvarLoop_combos_indep (o o' : Oracle) (b b' : JType) :
    ∀ (fuel : Nat) (slots : List TvarSlot),
      (tvarLoop o b fuel slots).1 = (tvarLoop o' b' fuel slots).1 := by
  intro fuel
  induction fuel with
  | zero => intro slots; rfl
  | succ fuel ih =>
    intro slots
    rw [tvarLoop, tvarLoop]
    dsimp only
    by_cases hc : (getnext slots).2 = true
    · rw [if_pos hc, if_pos hc]
      exact congrArg _ (ih _)
    · rw [Bool.not_eq_true] at hc
      rw [hc]
      rfl

/-- Claim C9 (amended): for every combination the `_compile_all_tvar_union`
enumerator produces, an instantiation failure is caught and the combination
silently skipped (the set of tried combinations does not depend on the
oracle at all, so no failure ever escapes or aborts the enumeration); a
successfully instantiated signature with no concrete subtype is discarded;
and a signature is handed to `jl_compile_hint` exactly when instantiation
succeeded, the result has a concrete subtype, and the result is itself a
concrete type — not merely when it has a concrete subtype, as the original
claim states. -/
theorem C9_instantiation_filtering (o : Oracle) (methsig : JType) :
    (compile_all_tvar_union o methsig).2
      = ((compile_all_tvar_union o methsig).1).filterMap
          (hintFn o (jl_unwrap_unionall methsig))
    ∧ ∀ o' : Oracle,
        (compile_all_tvar_union o' methsig).1 = (compile_all_tvar_union o methsig).1 := by
  constructor
  · unfold compile_all_tvar_union
    dsimp only
    by_cases h : jl_subtype_env_size methsig = 0
    · rw [if_pos h]
      rfl
    · rw [if_neg h]
      exact tvarLoop_hints o _ _ _
  · intro o'
    unfold compile_all_tvar_union
    dsimp only
    by_cases h : jl_subtype_env_size methsig = 0
    · rw [if_pos h, if_pos h]
    · rw [if_neg h, if_neg h]
      exact tvarLoop_combos_indep o' o _ _ _ _

/-- Claim C9 counterexample: on `Tuple{T} where T <: Union{A, F}` with the
oracle `oracleC9`, the third enumerated combination — the narrowed-variable
rebinding of the abstract alternative `F` — instantiates successfully to
`tAbsC9`, which has a concrete subtype but is not itself concrete, and it is
not handed on for hinting: only the concrete instantiation `Tuple{A}` is.
This refutes the claim that every successfully instantiated signature with a
concrete subtype is handed to the caller for hinting. -/
theorem C9_counterexample :
    (compile_all_tvar_union oracleC9 sigC9).1
      = [[(0, JType.bottom)], [(0, dtA)], [(0, JType.tvar 0 JType.bottom absF)]]
    ∧ oracleC9.instantiate (jl_unwrap_unionall sigC9) [(0, JType.tvar 0 JType.bottom absF)]
        = some tAbsC9
    ∧ oracleC9.hasConcreteSubtype tAbsC9 = true
    ∧ jl_is_concrete_type tAbsC9 = false
    ∧ (compile_all_tvar_union oracleC9 sigC9).2 = [JType.tuple [dtA]]
    ∧ tAbsC9 ∉ (compile_all_tvar_union oracleC9 sigC9).2 := by
  refine ⟨rfl, rfl, rfl, rfl, rfl, ?_⟩
  intro hmem
  rw [show (compile_all_tvar_union oracleC9 sigC9).2 = [JType.tuple [dtA]] from rfl] at hmem
  simp [tAbsC9, dtA] at hmem

/-! ## Claims on specialization selection -/

theorem enqWalk_eq (mi : MethodInstance) : ∀ (xs : List CodeInstance)
    (closure : List EnqItem),
    enqSpecializationWalk mi closure xs
      = if xs.any do_compile then closure ++ [EnqItem.mi mi] else closure := by
  intro xs
  induction xs with
  | nil => intro closure; rfl
  | cons ci rest ih =>
    intro closure
    rw [enqSpecializationWalk]
    by_cases h : do_compile ci = true
    · simp [h]
    · simp [h, ih]

theorem do_compile_iff (ci : CodeInstance) :
    do_compile ci = true ↔
      ci.invoke ≠ Invoke.constReturn ∧
        (ci.inferred = InferredIR.ir true 65535
          ∨ ci.invoke ≠ Invoke.nullp ∨ ci.precompileFlag = true) := by
  obtain ⟨inv, inf, pc⟩ := ci
  cases inv <;> cases inf <;> simp [do_compile]

/-- Claim C2: in the incremental scan, for a method outside the
`__init__`/foreign-linkage special case, `precompile_enq_specialization_`
pushes the specialization onto the compile set if and only if some entry of
its cache chain both escapes the constant-return short-circuit
(`invoke != jl_fptr_const_return`) and satisfies: its inferred IR is present,
marked fully inferred, and carries the `UINT16_MAX` always-compile
inlining-cost sentinel; OR it already has a native entry point
(`invoke != NULL`); OR it was explicitly flagged for forced precompilation. -/
theorem C2_enq_specialization (mi : MethodInstance) (closure : List EnqItem) :
    precompile_enq_specialization_ mi closure
      = (if mi.cache.any do_compile then closure ++ [EnqItem.mi mi] else closure)
    ∧ (mi.cache.any do_compile = true ↔
        ∃ ci ∈ mi.cache, ci.invoke ≠ Invoke.constReturn ∧
          (ci.inferred = InferredIR.ir true 65535
            ∨ ci.invoke ≠ Invoke.nullp ∨ ci.precompileFlag = true)) := by
  constructor
  · rw [precompile_enq_specialization_]
    exact enqWalk_eq mi mi.cache closure
  · rw [List.any_eq_true]
    constructor
    · rintro ⟨ci, hmem, hdc⟩
      exact ⟨ci, hmem, (do_compile_iff ci).mp hdc⟩
    · rintro ⟨ci, hmem, hprop⟩
      exact ⟨ci, hmem, (do_compile_iff ci).mpr hprop⟩

theorem mem_enqWalk (mi : MethodInstance) (x : EnqItem) :
    ∀ (xs : List CodeInstance) (closure : List EnqItem), x ∈ closure →
      x ∈ enqSpecializationWalk mi closure xs := by
  intro xs
  induction xs with
  | nil => intro c h; exact h
  | cons ci rest ih =>
    intro c h
    rw [enqSpecializationWalk]
    by_cases hdc : do_compile ci = true
    · rw [if_pos hdc]
      exact List.mem_append_left _ h
    · rw [if_neg hdc]
      exact ih c h

theorem mem_specFold (x : EnqItem) :
    ∀ (specs : List (Option MethodInstance)) (closure : List EnqItem), x ∈ closure →
      x ∈ specs.foldl (fun acc mi? => match mi? with
        | some mi => precompile_enq_specialization_ mi acc
        | none => acc) closure := by
  intro specs
  induction specs with
  | nil => intro c h; exact h
  | cons s rest ih =>
    intro c h
    rw [List.foldl_cons]
    cases s with
    | none => exact ih c h
    | some mi => exact ih _ (mem_enqWalk mi x _ _ h)

theorem mem_enqAll (m : JMethod) (x : EnqItem) (closure : List EnqItem) (h : x ∈ closure) :
    x ∈ precompile_enq_all_specializations__ m closure := by
  rw [precompile_enq_all_specializations__]
  have hmid : ∀ (cl : List EnqItem), x ∈ cl →
      x ∈ (if m.ccallable = true then cl ++ [EnqItem.ccallableEntry m.id] else cl) := by
    intro cl hcl
    by_cases hc : m.ccallable = true
    · rw [if_pos hc]; exact List.mem_append_left _ hcl
    · rw [if_neg hc]; exact hcl
  apply hmid
  by_cases hcond : (m.name = "__init__" ∨ m.ccallable = true) ∧ m.sigDispatchTuple = true
  · rw [if_pos hcond]
    exact List.mem_append_left _ h
  · rw [if_neg hcond]
    exact mem_specFold x m.specializations closure h

theorem forced_mem_enqAll (m : JMethod) (closure : List EnqItem)
    (h1 : m.name = "__init__" ∨ m.ccallable = true) (h2 : m.sigDispatchTuple = true) :
    EnqItem.mi m.forcedMI ∈ precompile_enq_all_specializations__ m closure := by
  rw [precompile_enq_all_specializations__]
  rw [if_pos (show (m.name = "__init__" ∨ m.ccallable = true) ∧ m.sigDispatchTuple = true
    from ⟨h1, h2⟩)]
  by_cases hc : m.ccallable = true
  · rw [if_pos hc]
    exact List.mem_append_left _ (List.mem_append_right _ (by simp))
  · rw [if_neg hc]
    exact List.mem_append_right _ (by simp)

theorem mem_methodsFold (x : EnqItem) :
    ∀ (ms : List JMethod) (closure : List EnqItem), x ∈ closure →
      x ∈ ms.foldl (fun a mm => precompile_enq_all_specializations__ mm a) closure := by
  intro ms
  induction ms with
  | nil => intro c h; exact h
  | cons hd rest ih =>
    intro c h
    rw [List.foldl_cons]
    exact ih _ (mem_enqAll hd x c h)

theorem forced_mem_methodsFold (m : JMethod)
    (h1 : m.name = "__init__" ∨ m.ccallable = true) (h2 : m.sigDispatchTuple = true) :
    ∀ (ms : List JMethod), m ∈ ms → ∀ (closure : List EnqItem),
      EnqItem.mi m.forcedMI
        ∈ ms.foldl (fun a mm => precompile_enq_all_specializations__ mm a) closure := by
  intro ms
  induction ms with
  | nil => intro h; simp at h
  | cons hd rest ih =>
    intro hmem closure
    rw [List.foldl_cons]
    rcases List.mem_cons.mp hmem with rfl | hmem'
    · exact mem_methodsFold _ rest _ (forced_mem_enqAll m closure h1 h2)
    · exact ih hmem' _

theorem mem_worklistFold (x : EnqItem) :
    ∀ (ws : List JModule) (acc : List EnqItem), x ∈ acc →
      x ∈ ws.foldl (fun acc mod_ => mod_.methods.foldl
        (fun a mm => precompile_enq_all_specializations__ mm a) acc) acc := by
  intro ws
  induction ws with
  | nil => intro acc h; exact h
  | cons w rest ih =>
    intro acc h
    rw [List.foldl_cons]
    exact ih _ (mem_methodsFold x w.methods acc h)

theorem forced_mem_worklistFold (m : JMethod)
    (h1 : m.name = "__init__" ∨ m.ccallable = true) (h2 : m.sigDispatchTuple = true) :
    ∀ (ws : List JModule) (mod_ : JModule), mod_ ∈ ws → m ∈ mod_.methods →
      ∀ (acc : List EnqItem),
      EnqItem.mi m.forcedMI ∈ ws.foldl (fun acc mod_ => mod_.methods.foldl
        (fun a mm => precompile_enq_all_specializations__ mm a) acc) acc := by
  intro ws
  induction ws with
  | nil => intro mod_ h; simp at h
  | cons w rest ih =>
    intro mod_ hw hm acc
    rw [List.foldl_cons]
    rcases List.mem_cons.mp hw with rfl | hw'
    · exact mem_worklistFold _ rest _ (forced_mem_methodsFold m h1 h2 _ hm acc)
    · exact ih mod_ hw' hm _

/-- Claim C3 (amended): for every module in the worklist, incremental
selection unconditionally includes the forced specialization
(`jl_specializations_get_linfo(m, m->sig, jl_emptysvec)`) of a method named
`__init__` or exported for foreign linkage (`ccallable`), regardless of cache
state — provided `jl_is_dispatch_tupletype(m->sig)` holds; a qualifying
method whose signature is not a dispatch tuple type instead has its existing
specializations scanned by cache state. -/
theorem C3_forced_inclusion (worklist : List JModule) (mod_ : JModule) (m : JMethod)
    (hmod : mod_ ∈ worklist) (hm : m ∈ mod_.methods)
    (h1 : m.name = "__init__" ∨ m.ccallable = true) (h2 : m.sigDispatchTuple = true) :
    EnqItem.mi m.forcedMI ∈ jl_precompile_worklist worklist := by
  rw [jl_precompile_worklist]
  exact forced_mem_worklistFold m h1 h2 worklist mod_ hmod hm []

/-- Witness for claim C3: a one-module worklist holding one `__init__` method
with a dispatch-tuple signature and an empty specialization list (every
cache-state predicate is false); its forced specialization is included. -/
theorem C3_forced_inclusion_witness :
    (JModule.mk [mC3w] ∈ [JModule.mk [mC3w]] ∧ mC3w ∈ (JModule.mk [mC3w]).methods
      ∧ (mC3w.name = "__init__" ∨ mC3w.ccallable = true) ∧ mC3w.sigDispatchTuple = true
      ∧ mC3w.specializations = [])
    ∧ EnqItem.mi mC3w.forcedMI ∈ jl_precompile_worklist [JModule.mk [mC3w]] :=
  ⟨⟨by simp, by simp, Or.inl rfl, rfl, rfl⟩,
   C3_forced_inclusion [JModule.mk [mC3w]] (JModule.mk [mC3w]) mC3w
     (by simp) (by simp) (Or.inl rfl) rfl⟩

/-- Claim C3 counterexample: a method named `__init__` whose signature is not
a dispatch tuple type and whose specialization list is empty contributes
nothing to the compile set — its forced specialization is not included, so
the unconditional claim fails. -/
theorem C3_counterexample :
    mC3.name = "__init__" ∧ mC3.sigDispatchTuple = false
    ∧ jl_precompile_worklist [JModule.mk [mC3]] = [] :=
  ⟨rfl, rfl, rfl⟩

/-- Claim C6 counterexample: a full-sweep method with a generic body whose
declared signature is already a compileable dispatch signature is hinted
directly and receives no unspecialized fallback — the compile set stays
empty even though `jl_get_unspecialized` would provide one.  This refutes the
claim that a fallback is always materialized for every visited method. -/
theorem C6_counterexample :
    mC6.hasSource = true ∧ mC6.compileableSig = true
    ∧ mC6.unspecialized = some ⟨7, []⟩
    ∧ (jl_compile_all_defs trivialOracle [mC6]).1 = [] :=
  ⟨rfl, rfl, rfl, rfl⟩

theorem compileAllDefs_step_mono (o : Oracle) (u : MethodInstance)
    (acc : List MethodInstance × List JType) (m : CMethod) (h : u ∈ acc.1) :
    u ∈ ((fun (acc : List MethodInstance × List JType) (m : CMethod) =>
      if m.compileableSig then (acc.1, acc.2 ++ [m.sig])
      else
        ((acc.1 ++ (match m.unspecialized with | some u => [u] | none => []),
          acc.2 ++ (compile_all_union o m.sig).hints))) acc m).1 := by
  by_cases hc : m.compileableSig = true
  · simpa [hc] using h
  · simp only [hc, Bool.false_eq_true, if_false]
    exact List.mem_append_left _ h

theorem compileAllDefs_fold_mono (o : Oracle) (u : MethodInstance) :
    ∀ (ms : List CMethod) (acc : List MethodInstance × List JType), u ∈ acc.1 →
      u ∈ (ms.foldl (fun acc m =>
        if m.compileableSig then (acc.1, acc.2 ++ [m.sig])
        else
          (acc.1 ++ (match m.unspecialized with | some u => [u] | none => []),
           acc.2 ++ (compile_all_union o m.sig).hints)) acc).1 := by
  intro ms
  induction ms with
  | nil => intro acc h; exact h
  | cons m rest ih =>
    intro acc h
    rw [List.foldl_cons]
    exact ih _ (compileAllDefs_step_mono o u acc m h)

theorem compileAllDefs_fold_insert (o : Oracle) (m : CMethod) (u : MethodInstance)
    (hc : m.compileableSig = false) (hu : m.unspecialized = some u) :
    ∀ (ms : List CMethod), m ∈ ms → ∀ (acc : List MethodInstance × List JType),
      u ∈ (ms.foldl (fun acc m =>
        if m.compileableSig then (acc.1, acc.2 ++ [m.sig])
        else
          (acc.1 ++ (match m.unspecialized with | some u => [u] | none => []),
           acc.2 ++ (compile_all_union o m.sig).hints)) acc).1 := by
  intro ms
  induction ms with
  | nil => intro h; simp at h
  | cons hd rest ih =>
    intro hmem acc
    rw [List.foldl_cons]
    rcases List.mem_cons.mp hmem with rfl | hmem'
    · apply compileAllDefs_fold_mono
      simp [hc, hu]
    · exact ih hmem' _

/-- Claim C6 (amended): in full-sweep mode, for every visited method with a
generic body whose declared signature is not itself a compileable dispatch
signature, the fully generic unspecialized fallback specialization — when
the runtime materializes one (`jl_get_unspecialized` non-`NULL`) — is added
to the compile set; methods with an already-compileable declared signature
are hinted directly and receive no fallback. -/
theorem C6_unspecialized_fallback (o : Oracle) (methods : List CMethod) (m : CMethod)
    (u : MethodInstance) (hm : m ∈ methods) (hs : m.hasSource = true)
    (hc : m.compileableSig = false) (hu : m.unspecialized = some u) :
    u ∈ (jl_compile_all_defs o methods).1 := by
  rw [jl_compile_all_defs]
  exact compileAllDefs_fold_insert o m u hc hu (compile_all_collect methods)
    (by rw [compile_all_collect]; exact List.mem_filter.mpr ⟨hm, hs⟩) ([], [])

/-- Witness for claim C6: a method with a non-compileable declared signature
and an available unspecialized fallback; the fallback lands in the compile
set. -/
theorem C6_unspecialized_fallback_witness :
    (mC6w ∈ [mC6w] ∧ mC6w.hasSource = true ∧ mC6w.compileableSig = false
      ∧ mC6w.unspecialized = some ⟨8, []⟩)
    ∧ (⟨8, []⟩ : MethodInstance) ∈ (jl_compile_all_defs trivialOracle [mC6w]).1 :=
  ⟨⟨by simp, rfl, rfl, rfl⟩,
   C6_unspecialized_fallback trivialOracle [mC6w] mC6w ⟨8, []⟩ (by simp) rfl rfl rfl⟩

/-! ## Claim on the module initialization order -/

theorem buildInitOrder_fold (ws : List WModule) :
    ∀ (acc : List WModule × List Nat),
      (ws.foldl (fun acc m =>
        if m.hasInitGlobal then
          (acc.1 ++ [m],
           acc.2 ++
             (if m.setting ≠ CompileSetting.off ∧ m.setting ≠ CompileSetting.min then
                [m.initTupleType]
              else []))
        else acc) acc).1
      = acc.1 ++ ws.filter (fun m => m.hasInitGlobal) := by
  induction ws with
  | nil => intro acc; simp
  | cons m rest ih =>
    intro acc
    rw [List.foldl_cons, List.filter_cons]
    by_cases hm : m.hasInitGlobal = true
    · rw [if_pos hm, if_pos hm, ih]
      simp
    · rw [if_neg hm, if_neg hm, ih]

/-- Claim C10: the init-order rebuild loop of `jl_write_compiler_output`
replaces the global module-initialization-order list with a fresh list
containing exactly those modules of the original order that bind a global
named `__init__`, in their original relative order; modules without an
`__init__` binding are silently dropped. -/
theorem C10_init_order (worklist : List WModule) :
    (buildInitOrder worklist).1 = worklist.filter (fun m => m.hasInitGlobal) := by
  rw [buildInitOrder, buildInitOrder_fold]
  rfl
